import Mathlib

/-!
A verification development for the arbitrary-geometry TEBD / simple-update
layer of the quimb tensor-network library
(`quimb/tensor/tensor_arbgeom_tebd.py`, `quimb/tensor/tensor_arbgeom.py`).

Python dictionaries are embedded as insertion-ordered association lists,
sites as natural numbers, dense operator arrays as rational-valued entry
functions, and floating point scalars as elements of a linear ordered field
(instantiated at `ℚ` or `ℝ` as needed).  External numerical kernels
(`np.linalg.norm`, `scipy.linalg.expm`, SVD splitting, contraction) are
parameters of the embedding, as the spec treats them as library primitives.
-/

namespace Quimb

/-- A lattice site: hashable and comparable, embedded as a natural number. -/
abbrev Site := Nat

/-- A two-site term key: a pair of sites. -/
abbrev Edge := Site × Site

section AssocList

variable {α β : Type} [DecidableEq α]

/-- Lookup in a Python-dict model: first entry with the given key. -/
def alookup (k : α) : List (α × β) → Option β
  | [] => none
  | (k₂, v) :: t => if k₂ = k then some v else alookup k t

/-- Removal of a key, modelling `dict.pop`. -/
def aerase (k : α) : List (α × β) → List (α × β)
  | [] => []
  | (k₂, v) :: t => if k₂ = k then aerase k t else (k₂, v) :: aerase k t

/-- Assignment `d[k] = v`: update in place if present, else append at the end,
matching insertion-order semantics of Python dicts. -/
def aset (k : α) (v : β) : List (α × β) → List (α × β)
  | [] => [(k, v)]
  | (k₂, v₂) :: t => if k₂ = k then (k, v) :: t else (k₂, v₂) :: aset k v t

theorem alookup_aset_self (k : α) (v : β) (l : List (α × β)) :
    alookup k (aset k v l) = some v := by
  induction l with
  | nil => simp [aset, alookup]
  | cons h t ih =>
    obtain ⟨k₂, v₂⟩ := h
    by_cases hk : k₂ = k <;> simp [aset, alookup, hk, ih]

theorem alookup_aset_ne (k k₂ : α) (v : β) (l : List (α × β)) (h : k₂ ≠ k) :
    alookup k (aset k₂ v l) = alookup k l := by
  induction l with
  | nil => simp [aset, alookup, h]
  | cons hd t ih =>
    obtain ⟨k₃, v₃⟩ := hd
    by_cases hk : k₃ = k₂
    · subst hk
      simp [aset, alookup, h]
    · simp [aset, alookup, hk, ih]

theorem alookup_aerase_self (k : α) (l : List (α × β)) :
    alookup k (aerase k l) = none := by
  induction l with
  | nil => simp [aerase, alookup]
  | cons hd t ih =>
    obtain ⟨k₂, v₂⟩ := hd
    by_cases hk : k₂ = k <;> simp [aerase, alookup, hk, ih]

theorem alookup_aerase_ne (k k₂ : α) (l : List (α × β)) (h : k₂ ≠ k) :
    alookup k (aerase k₂ l) = alookup k l := by
  have h₂ : k ≠ k₂ := fun hc => h hc.symm
  induction l with
  | nil => simp [aerase, alookup]
  | cons hd t ih =>
    obtain ⟨k₃, v₃⟩ := hd
    by_cases hk : k₃ = k₂
    · have hk₂ : k₃ ≠ k := fun hc => h (hk ▸ hc)
      simp [aerase, alookup, hk, hk₂, h, ih]
    · by_cases hk₂ : k₃ = k <;> simp [aerase, alookup, hk, hk₂, h, h₂, ih]

theorem mem_aset (k : α) (v : β) (l : List (α × β)) (kv : α × β) :
    kv ∈ aset k v l → kv = (k, v) ∨ kv ∈ l := by
  induction l with
  | nil =>
    intro h
    simpa [aset] using h
  | cons hd t ih =>
    obtain ⟨k₂, v₂⟩ := hd
    intro h
    by_cases hk : k₂ = k
    · rw [aset, if_pos hk, List.mem_cons] at h
      rcases h with h | h
      · exact Or.inl h
      · exact Or.inr (List.mem_cons_of_mem _ h)
    · rw [aset, if_neg hk, List.mem_cons] at h
      rcases h with h | h
      · exact Or.inr (List.mem_cons.mpr (Or.inl h))
      · rcases ih h with h₂ | h₂
        · exact Or.inl h₂
        · exact Or.inr (List.mem_cons_of_mem _ h₂)

theorem mem_aerase (k : α) (l : List (α × β)) (kv : α × β) :
    kv ∈ aerase k l → kv ∈ l ∧ kv.1 ≠ k := by
  induction l with
  | nil =>
    intro h
    simp [aerase] at h
  | cons hd t ih =>
    obtain ⟨k₂, v₂⟩ := hd
    intro h
    by_cases hk : k₂ = k
    · rw [aerase, if_pos hk] at h
      exact ⟨List.mem_cons_of_mem _ (ih h).1, (ih h).2⟩
    · rw [aerase, if_neg hk, List.mem_cons] at h
      rcases h with h | h
      · subst h
        exact ⟨List.mem_cons_self _ _, hk⟩
      · exact ⟨List.mem_cons_of_mem _ (ih h).1, (ih h).2⟩

theorem alookup_eq_none_of_not_mem (k : α) (l : List (α × β))
    (h : ∀ v, (k, v) ∉ l) : alookup k l = none := by
  induction l with
  | nil => simp [alookup]
  | cons hd t ih =>
    obtain ⟨k₂, v₂⟩ := hd
    by_cases hk : k₂ = k
    · subst hk
      exact absurd (List.mem_cons_self _ _) (h v₂)
    · rw [alookup, if_neg hk]
      exact ih fun v hv => h v (List.mem_cons_of_mem _ hv)

theorem mem_of_alookup_eq_some (k : α) (v : β) (l : List (α × β)) :
    alookup k l = some v → (k, v) ∈ l := by
  induction l with
  | nil =>
    intro h
    simp [alookup] at h
  | cons hd t ih =>
    obtain ⟨k₂, v₂⟩ := hd
    intro h
    by_cases hk : k₂ = k
    · rw [alookup, if_pos hk] at h
      rw [hk, Option.some_inj.mp h]
      exact List.mem_cons_self _ _
    · rw [alookup, if_neg hk] at h
      exact List.mem_cons_of_mem _ (ih h)

theorem not_mem_of_alookup_eq_none (k : α) (l : List (α × β)) :
    alookup k l = none → ∀ v, (k, v) ∉ l := by
  induction l with
  | nil =>
    intro _ v h
    simp at h
  | cons hd t ih =>
    obtain ⟨k₂, v₂⟩ := hd
    intro h v hv
    by_cases hk : k₂ = k
    · rw [alookup, if_pos hk] at h
      exact Option.noConfusion h
    · rw [alookup, if_neg hk] at h
      rcases List.mem_cons.mp hv with hv | hv
      · exact hk (congrArg Prod.fst hv).symm
      · exact ih h v hv

theorem alookup_ne_none_iff_mem_keys (k : α) (l : List (α × β)) :
    alookup k l ≠ none ↔ k ∈ l.map Prod.fst := by
  induction l with
  | nil => simp [alookup]
  | cons hd t ih =>
    obtain ⟨k₂, v₂⟩ := hd
    by_cases hk : k₂ = k
    · simp [alookup, hk]
    · have hk₂ : k ≠ k₂ := fun hc => hk hc.symm
      simp [alookup, hk, hk₂, ih]

end AssocList

/-! ### The greedy commuting-set ordering of `LocalHamGen.get_auto_ordering`

Embeds the loop at the end of `get_auto_ordering`:

    cover = set(); ordering = list()
    while pairs:
        for pair in tuple(pairs):
            ij1, ij2 = pair
            if (ij1 not in cover) and (ij2 not in cover):
                ordering.append(pair); pairs.pop(pair)
                cover.add(ij1); cover.add(ij2)
        cover.clear()
-/

/-- One pass of the inner `for` loop: scan the remaining pairs in order,
taking every pair both of whose sites are uncovered (adding its sites to the
cover as we go).  Returns the pairs taken this pass and the pairs remaining,
both in their original order. -/
def greedyPass (cover : List Site) : List Edge → List Edge × List Edge
  | [] => ([], [])
  | e :: es =>
    if e.1 ∈ cover ∨ e.2 ∈ cover then
      let p := greedyPass cover es
      (p.1, e :: p.2)
    else
      let p := greedyPass (e.1 :: e.2 :: cover) es
      (e :: p.1, p.2)

theorem greedyPass_snd_length (cover : List Site) (es : List Edge) :
    (greedyPass cover es).2.length ≤ es.length := by
  induction es generalizing cover with
  | nil => simp [greedyPass]
  | cons e es ih =>
    by_cases h : e.1 ∈ cover ∨ e.2 ∈ cover
    · simpa [greedyPass, h] using ih cover
    · simp only [greedyPass, if_neg h]
      exact le_trans (ih (e.1 :: e.2 :: cover)) (Nat.le_succ _)

theorem greedyPass_nil_cons (e : Edge) (es : List Edge) :
    greedyPass [] (e :: es) =
      (e :: (greedyPass [e.1, e.2] es).1, (greedyPass [e.1, e.2] es).2) := by
  simp [greedyPass]

/-- The full `while pairs:` loop, as the list of "layers" (one per pass).
Terminates because every pass starts with an empty cover and therefore always
takes the first remaining pair. -/
def greedyGroups : List Edge → List (List Edge)
  | [] => []
  | e :: es =>
    (greedyPass [] (e :: es)).1 :: greedyGroups (greedyPass [] (e :: es)).2
termination_by es => es.length
decreasing_by
  simp only [greedyPass_nil_cons]
  exact Nat.lt_succ_of_le (greedyPass_snd_length _ _)

theorem greedyPass_perm (cover : List Site) (es : List Edge) :
    List.Perm ((greedyPass cover es).1 ++ (greedyPass cover es).2) es := by
  induction es generalizing cover with
  | nil => simp [greedyPass]
  | cons e es ih =>
    by_cases h : e.1 ∈ cover ∨ e.2 ∈ cover
    · simp only [greedyPass, if_pos h]
      exact (List.perm_middle).trans ((ih cover).cons e)
    · simp only [greedyPass, if_neg h, List.cons_append]
      exact (ih (e.1 :: e.2 :: cover)).cons e

/-- Two edges are site-disjoint: they touch no common site. -/
def edgesDisjoint (e f : Edge) : Prop :=
  e.1 ≠ f.1 ∧ e.1 ≠ f.2 ∧ e.2 ≠ f.1 ∧ e.2 ≠ f.2

instance (e f : Edge) : Decidable (edgesDisjoint e f) := by
  unfold edgesDisjoint
  infer_instance

theorem greedyPass_taken_not_covered (cover : List Site) (es : List Edge) :
    ∀ e ∈ (greedyPass cover es).1, e.1 ∉ cover ∧ e.2 ∉ cover := by
  induction es generalizing cover with
  | nil => simp [greedyPass]
  | cons e es ih =>
    by_cases h : e.1 ∈ cover ∨ e.2 ∈ cover
    · simpa only [greedyPass, if_pos h] using ih cover
    · simp only [greedyPass, if_neg h]
      intro f hf
      rcases List.mem_cons.mp hf with hf | hf
      · subst hf
        push_neg at h
        exact h
      · have hc := ih (e.1 :: e.2 :: cover) f hf
        refine ⟨fun hm => hc.1 ?_, fun hm => hc.2 ?_⟩
        · exact List.mem_cons_of_mem _ (List.mem_cons_of_mem _ hm)
        · exact List.mem_cons_of_mem _ (List.mem_cons_of_mem _ hm)

theorem greedyPass_taken_pairwise (cover : List Site) (es : List Edge) :
    ((greedyPass cover es).1).Pairwise edgesDisjoint := by
  induction es generalizing cover with
  | nil => simp [greedyPass]
  | cons e es ih =>
    by_cases h : e.1 ∈ cover ∨ e.2 ∈ cover
    · simpa only [greedyPass, if_pos h] using ih cover
    · simp only [greedyPass, if_neg h]
      refine List.Pairwise.cons ?_ (ih (e.1 :: e.2 :: cover))
      intro f hf
      have hc := greedyPass_taken_not_covered (e.1 :: e.2 :: cover) es f hf
      have h11 : f.1 ≠ e.1 := fun hc₂ => hc.1 (hc₂ ▸ List.mem_cons_self _ _)
      have h12 : f.1 ≠ e.2 :=
        fun hc₂ => hc.1 (hc₂ ▸ List.mem_cons_of_mem _ (List.mem_cons_self _ _))
      have h21 : f.2 ≠ e.1 := fun hc₂ => hc.2 (hc₂ ▸ List.mem_cons_self _ _)
      have h22 : f.2 ≠ e.2 :=
        fun hc₂ => hc.2 (hc₂ ▸ List.mem_cons_of_mem _ (List.mem_cons_self _ _))
      exact ⟨h11.symm, h21.symm, h12.symm, h22.symm⟩

theorem greedyGroups_flatten_perm_aux :
    ∀ (n : Nat) (es : List Edge), es.length ≤ n →
      List.Perm (greedyGroups es).flatten es := by
  intro n
  induction n with
  | zero =>
    intro es h
    match es with
    | [] => simp [greedyGroups]
  | succ n ih =>
    intro es h
    match es with
    | [] => simp [greedyGroups]
    | e :: es₂ =>
      rw [greedyGroups]
      have hlen : (greedyPass [] (e :: es₂)).2.length ≤ n := by
        rw [greedyPass_nil_cons]
        exact le_trans (greedyPass_snd_length _ _) (Nat.le_of_succ_le_succ h)
      have hrec := ih (greedyPass [] (e :: es₂)).2 hlen
      have hstep :
          ((greedyPass [] (e :: es₂)).1 ::
              greedyGroups (greedyPass [] (e :: es₂)).2).flatten =
            (greedyPass [] (e :: es₂)).1 ++
              (greedyGroups (greedyPass [] (e :: es₂)).2).flatten := by
        simp [List.flatten]
      rw [hstep]
      exact (List.Perm.append_left _ hrec).trans (greedyPass_perm [] (e :: es₂))

theorem greedyGroups_flatten_perm (es : List Edge) :
    List.Perm (greedyGroups es).flatten es :=
  greedyGroups_flatten_perm_aux es.length es le_rfl

theorem greedyGroups_pairwise_aux :
    ∀ (n : Nat) (es : List Edge), es.length ≤ n →
      ∀ l ∈ greedyGroups es, l.Pairwise edgesDisjoint := by
  intro n
  induction n with
  | zero =>
    intro es h
    match es with
    | [] => simp [greedyGroups]
  | succ n ih =>
    intro es h
    match es with
    | [] => simp [greedyGroups]
    | e :: es₂ =>
      rw [greedyGroups]
      intro l hl
      rcases List.mem_cons.mp hl with hl | hl
      · subst hl
        exact greedyPass_taken_pairwise [] (e :: es₂)
      · have hlen : (greedyPass [] (e :: es₂)).2.length ≤ n := by
          rw [greedyPass_nil_cons]
          exact le_trans (greedyPass_snd_length _ _) (Nat.le_of_succ_le_succ h)
        exact ih (greedyPass [] (e :: es₂)).2 hlen l hl

theorem greedyGroups_pairwise (es : List Edge) :
    ∀ l ∈ greedyGroups es, l.Pairwise edgesDisjoint :=
  greedyGroups_pairwise_aux es.length es le_rfl

/-- Lexicographic comparison of coordinate pairs, as used by Python
`sorted` on tuples of comparable sites. -/
def edgeLexLe (a b : Edge) : Prop :=
  a.1 < b.1 ∨ (a.1 = b.1 ∧ a.2 ≤ b.2)

instance : DecidableRel edgeLexLe := by
  unfold edgeLexLe
  intro a b
  infer_instance

/-- Ordering policies accepted by `LocalHamGen.get_auto_ordering`.  The two
random policies carry the outcome of `random.shuffle` (an arbitrary
permutation of the term keys, universally quantified in the theorems). -/
inductive OrderPolicy where
  | sortKeys : OrderPolicy
  | keepOrder : OrderPolicy
  | randomGrouped (shuffled : List Edge) : OrderPolicy
  | randomUngrouped (shuffled : List Edge) : OrderPolicy

/-- Embedding of `LocalHamGen.get_auto_ordering` for the four non-coloring
policies (`"sort"`, `None`, `"random"`, `"random-ungrouped"`), given the term
keys in dict order.  The greedy grouping is `greedyGroups`, flattened. -/
def get_auto_ordering (termKeys : List Edge) : OrderPolicy → List Edge
  | .sortKeys => (greedyGroups (termKeys.insertionSort edgeLexLe)).flatten
  | .keepOrder => (greedyGroups termKeys).flatten
  | .randomGrouped shuffled => (greedyGroups shuffled).flatten
  | .randomUngrouped shuffled => shuffled

/-- C1: for every `LocalHamGen` term-key list and grouping policy
(`"sort"`, `None`, `"random"`), `get_auto_ordering` returns a sequence
containing each key of `terms` exactly once (a permutation of the keys),
produced by the greedy pass algorithm (`greedyGroups`), so that no two
edges within the same greedily-formed layer share a site; for
`"random-ungrouped"` the result is a permutation of the terms with no
layering guarantee. -/
theorem C1_get_auto_ordering_valid (termKeys shuffled : List Edge)
    (hshuf : List.Perm shuffled termKeys) :
    List.Perm (get_auto_ordering termKeys .sortKeys) termKeys
    ∧ List.Perm (get_auto_ordering termKeys .keepOrder) termKeys
    ∧ List.Perm (get_auto_ordering termKeys (.randomGrouped shuffled)) termKeys
    ∧ List.Perm (get_auto_ordering termKeys (.randomUngrouped shuffled)) termKeys
    ∧ get_auto_ordering termKeys .sortKeys =
        (greedyGroups (termKeys.insertionSort edgeLexLe)).flatten
    ∧ get_auto_ordering termKeys .keepOrder = (greedyGroups termKeys).flatten
    ∧ get_auto_ordering termKeys (.randomGrouped shuffled) =
        (greedyGroups shuffled).flatten
    ∧ (∀ l ∈ greedyGroups (termKeys.insertionSort edgeLexLe),
        l.Pairwise edgesDisjoint)
    ∧ (∀ l ∈ greedyGroups termKeys, l.Pairwise edgesDisjoint)
    ∧ (∀ l ∈ greedyGroups shuffled, l.Pairwise edgesDisjoint) := by
  refine ⟨?_, ?_, ?_, ?_, rfl, rfl, rfl, ?_, ?_, ?_⟩
  · exact (greedyGroups_flatten_perm _).trans (List.perm_insertionSort _ _)
  · exact greedyGroups_flatten_perm _
  · exact (greedyGroups_flatten_perm _).trans hshuf
  · exact hshuf
  · exact greedyGroups_pairwise _
  · exact greedyGroups_pairwise _
  · exact greedyGroups_pairwise _

/-- Witness for C1 on a concrete triangle graph with a concrete shuffle. -/
theorem C1_get_auto_ordering_valid_witness :
    List.Perm [((1 : Nat), (2 : Nat)), (0, 2), (0, 1)] [(0, 1), (1, 2), (0, 2)]
    ∧ (List.Perm
        (get_auto_ordering [(0, 1), (1, 2), (0, 2)] .sortKeys)
        [(0, 1), (1, 2), (0, 2)]
      ∧ List.Perm
        (get_auto_ordering [(0, 1), (1, 2), (0, 2)] .keepOrder)
        [(0, 1), (1, 2), (0, 2)]
      ∧ List.Perm
        (get_auto_ordering [(0, 1), (1, 2), (0, 2)]
          (.randomGrouped [(1, 2), (0, 2), (0, 1)]))
        [(0, 1), (1, 2), (0, 2)]
      ∧ List.Perm
        (get_auto_ordering [(0, 1), (1, 2), (0, 2)]
          (.randomUngrouped [(1, 2), (0, 2), (0, 1)]))
        [(0, 1), (1, 2), (0, 2)]
      ∧ get_auto_ordering [(0, 1), (1, 2), (0, 2)] .sortKeys =
          (greedyGroups
            (List.insertionSort edgeLexLe [(0, 1), (1, 2), (0, 2)])).flatten
      ∧ get_auto_ordering [(0, 1), (1, 2), (0, 2)] .keepOrder =
          (greedyGroups [(0, 1), (1, 2), (0, 2)]).flatten
      ∧ get_auto_ordering [(0, 1), (1, 2), (0, 2)]
          (.randomGrouped [(1, 2), (0, 2), (0, 1)]) =
          (greedyGroups [(1, 2), (0, 2), (0, 1)]).flatten
      ∧ (∀ l ∈ greedyGroups
            (List.insertionSort edgeLexLe [(0, 1), (1, 2), (0, 2)]),
          l.Pairwise edgesDisjoint)
      ∧ (∀ l ∈ greedyGroups [(0, 1), (1, 2), (0, 2)], l.Pairwise edgesDisjoint)
      ∧ (∀ l ∈ greedyGroups [(1, 2), (0, 2), (0, 1)],
          l.Pairwise edgesDisjoint)) :=
  ⟨by decide,
    C1_get_auto_ordering_valid [(0, 1), (1, 2), (0, 2)]
      [(1, 2), (0, 2), (0, 1)] (by decide)⟩

/-! ### Operator arrays and `LocalHamGen.__init__` term canonicalisation

Two-site operator arrays of shape `(d*d, d*d)` are embedded as their entry
functions over `ℚ` (the float entries idealised as exact scalars; entries at
indices outside the array's shape are irrelevant).  All two-site terms of one
Hamiltonian share the same local dimension `d`, carried as a parameter (the
Python code recovers it per-array as `int(x.size ** (1/4))`). -/

/-- Entry function of a dense operator array. -/
def Op := Nat → Nat → ℚ

/-- Elementwise addition `x + y` of two arrays. -/
def opAdd (x y : Op) : Op := fun i j => x i j + y i j

/-- Elementwise division `x / n` of an array by a scalar count. -/
def opDiv (x : Op) (n : Nat) : Op := fun i j => x i j / (n : ℚ)

/-- Reshape of a `(d*d, d*d)` array to shape `(d, d, d, d)` (row-major). -/
def reshape4 (d : Nat) (x : Op) : Nat → Nat → Nat → Nat → ℚ :=
  fun a b c e => x (a * d + b) (c * d + e)

/-- Transpose with axes `(1, 0, 3, 2)`. -/
def transpose1032 (t : Nat → Nat → Nat → Nat → ℚ) : Nat → Nat → Nat → Nat → ℚ :=
  fun a b c e => t b a e c

/-- Reshape of a `(d, d, d, d)` array back to shape `(d*d, d*d)` (row-major). -/
def reshape2 (d : Nat) (t : Nat → Nat → Nat → Nat → ℚ) : Op :=
  fun i j => t (i / d) (i % d) (j / d) (j % d)

/-- Embedding of `LocalHamGen._flip_cached`: reshape to `(d, d, d, d)`,
transpose axes `(1, 0, 3, 2)`, reshape back to `(d*d, d*d)`.  (The `id`-keyed
cache always returns the same value as this pure computation.) -/
def flip (d : Nat) (x : Op) : Op :=
  reshape2 d (transpose1032 (reshape4 d x))

theorem flip_entry (d : Nat) (x : Op) (i j : Nat) :
    flip d x i j = x (i % d * d + i / d) (j % d * d + j / d) := rfl

/-- The `terms` dict of a `LocalHamGen`, in insertion order. -/
abbrev Terms := List (Edge × Op)

/-- One step of the key-canonicalisation loop in `LocalHamGen.__init__`:

    for where in tuple(filter(bool, self.terms)):
        coo1, coo2 = where
        if coo1 < coo2: continue
        X12 = self._flip_cached(self.terms.pop(where))
        new_where = coo2, coo1
        if new_where in self.terms:
            self.terms[new_where] = self._add_cached(self.terms[new_where], X12)
        else:
            self.terms[new_where] = X12
-/
def canonStep (d : Nat) (ts : Terms) (w : Edge) : Terms :=
  if w.1 < w.2 then ts
  else
    match alookup w ts with
    | none => ts
    | some X12 =>
      let ts₂ := aerase w ts
      let Xf := flip d X12
      match alookup (w.2, w.1) ts₂ with
      | some Y => aset (w.2, w.1) (opAdd Y Xf) ts₂
      | none => aset (w.2, w.1) Xf ts₂

/-- The whole canonicalisation pass: fold `canonStep` over the snapshot of the
initial keys (Python iterates over `tuple(filter(bool, self.terms))`, a
snapshot taken before the loop mutates the dict; keys are nonempty tuples and
hence always truthy). -/
def canonicalize (d : Nat) (ts : Terms) : Terms :=
  (ts.map Prod.fst).foldl (canonStep d) ts

theorem foldl_canonStep_keys (d : Nat) :
    ∀ (ws : List Edge) (ts : Terms),
      (∀ kv ∈ ts, kv.1.1 < kv.1.2 ∨ (kv.1.1 ≠ kv.1.2 ∧ kv.1 ∈ ws)) →
      ∀ kv ∈ ws.foldl (canonStep d) ts, kv.1.1 < kv.1.2 := by
  intro ws
  induction ws with
  | nil =>
    intro ts hinv kv hkv
    rcases hinv kv hkv with h | h
    · exact h
    · exact absurd h.2 (List.not_mem_nil _)
  | cons w rest ih =>
    intro ts hinv
    rw [List.foldl_cons]
    refine ih (canonStep d ts w) ?_
    intro kv hkv
    by_cases hw : w.1 < w.2
    · rw [canonStep, if_pos hw] at hkv
      rcases hinv kv hkv with h | h
      · exact Or.inl h
      · rcases List.mem_cons.mp h.2 with h₂ | h₂
        · exact Or.inl (h₂ ▸ hw)
        · exact Or.inr ⟨h.1, h₂⟩
    · rw [canonStep, if_neg hw] at hkv
      rcases hlook : alookup w ts with _ | X12
      · rw [hlook] at hkv
        rcases hinv kv hkv with h | h
        · exact Or.inl h
        · rcases List.mem_cons.mp h.2 with h₂ | h₂
          · exact absurd (h₂ ▸ hkv) (not_mem_of_alookup_eq_none w ts hlook kv.2)
          · exact Or.inr ⟨h.1, h₂⟩
      · simp only [hlook] at hkv
        have hwmem : (w, X12) ∈ ts := mem_of_alookup_eq_some w X12 ts hlook
        have hwne : w.1 ≠ w.2 := by
          rcases hinv (w, X12) hwmem with h | h
          · exact absurd h hw
          · exact h.1
        have hwgt : w.2 < w.1 :=
          Nat.lt_of_le_of_ne (Nat.le_of_not_lt hw) fun hc => hwne hc.symm
        rcases hlook₂ : alookup (w.2, w.1) (aerase w ts) with _ | Y <;>
          simp only [hlook₂] at hkv
        · rcases mem_aset _ _ _ _ hkv with h | h
          · exact Or.inl (by rw [h]; exact hwgt)
          · have h₂ := mem_aerase _ _ _ h
            rcases hinv kv h₂.1 with h₃ | h₃
            · exact Or.inl h₃
            · rcases List.mem_cons.mp h₃.2 with h₄ | h₄
              · exact absurd h₄ h₂.2
              · exact Or.inr ⟨h₃.1, h₄⟩
        · rcases mem_aset _ _ _ _ hkv with h | h
          · exact Or.inl (by rw [h]; exact hwgt)
          · have h₂ := mem_aerase _ _ _ h
            rcases hinv kv h₂.1 with h₃ | h₃
            · exact Or.inl h₃
            · rcases List.mem_cons.mp h₃.2 with h₄ | h₄
              · exact absurd h₄ h₂.2
              · exact Or.inr ⟨h₃.1, h₄⟩

/-- The value merged into the canonical slot `(a, b)` when the reversed key
`(b, a)` is flipped: added to an existing `(a, b)` entry, or stored alone. -/
def canonCombine (d : Nat) (fwd : Option Op) (y : Op) : Op :=
  match fwd with
  | some x => opAdd x (flip d y)
  | none => flip d y

theorem canonStep_lookup_other (d : Nat) (ts : Terms) (w : Edge) (a b : Site)
    (hab : a < b) (hw : w ≠ (b, a)) :
    alookup (a, b) (canonStep d ts w) = alookup (a, b) ts
    ∧ alookup (b, a) (canonStep d ts w) = alookup (b, a) ts := by
  by_cases hlt : w.1 < w.2
  · rw [canonStep, if_pos hlt]
    exact ⟨rfl, rfl⟩
  · rw [canonStep, if_neg hlt]
    rcases hlook : alookup w ts with _ | X12
    · simp only [hlook]
      exact ⟨trivial, trivial⟩
    · simp only [hlook]
      have hwab : w ≠ (a, b) := by
        intro hc
        exact hlt (by rw [hc]; exact hab)
      have hrev_ab : (w.2, w.1) ≠ (a, b) := by
        intro hc
        apply hw
        have h1 : w.2 = a := congrArg Prod.fst hc
        have h2 : w.1 = b := congrArg Prod.snd hc
        exact Prod.ext h2 h1
      have hrev_ba : (w.2, w.1) ≠ (b, a) := by
        intro hc
        have h1 : w.2 = b := congrArg Prod.fst hc
        have h2 : w.1 = a := congrArg Prod.snd hc
        have : w = (a, b) := Prod.ext h2 h1
        exact hwab this
      constructor
      · rcases hlook₂ : alookup (w.2, w.1) (aerase w ts) with _ | Y <;>
          simp only [hlook₂]
        · rw [alookup_aset_ne _ _ _ _ hrev_ab, alookup_aerase_ne _ _ _ hwab]
        · rw [alookup_aset_ne _ _ _ _ hrev_ab, alookup_aerase_ne _ _ _ hwab]
      · rcases hlook₂ : alookup (w.2, w.1) (aerase w ts) with _ | Y <;>
          simp only [hlook₂]
        · rw [alookup_aset_ne _ _ _ _ hrev_ba, alookup_aerase_ne _ _ _ hw]
        · rw [alookup_aset_ne _ _ _ _ hrev_ba, alookup_aerase_ne _ _ _ hw]

theorem canonStep_lookup_rev (d : Nat) (ts : Terms) (a b : Site) (hab : a < b) :
    alookup (a, b) (canonStep d ts (b, a)) =
      (match alookup (b, a) ts with
        | some y => some (canonCombine d (alookup (a, b) ts) y)
        | none => alookup (a, b) ts)
    ∧ alookup (b, a) (canonStep d ts (b, a)) =
      (match alookup (b, a) ts with
        | some _ => none
        | none => alookup (b, a) ts) := by
  have hne : (b, a) ≠ (a, b) := by
    intro hc
    exact Nat.lt_irrefl a (hab.trans_eq (congrArg Prod.fst hc))
  have hlt : ¬(b, a).1 < (b, a).2 := Nat.not_lt.mpr (Nat.le_of_lt hab)
  rw [canonStep, if_neg hlt]
  rcases hlook : alookup (b, a) ts with _ | y
  · simp only [hlook]
    exact ⟨trivial, trivial⟩
  · simp only [hlook]
    have herase : alookup (a, b) (aerase (b, a) ts) = alookup (a, b) ts :=
      alookup_aerase_ne _ _ _ hne
    rcases hfwd : alookup (a, b) ts with _ | x
    · simp only [herase, hfwd]
      constructor
      · rw [alookup_aset_self]
        simp [canonCombine, hfwd]
      · rw [alookup_aset_ne _ _ _ _ hne.symm, alookup_aerase_self]
    · simp only [herase, hfwd]
      constructor
      · rw [alookup_aset_self]
        simp [canonCombine, hfwd]
      · rw [alookup_aset_ne _ _ _ _ hne.symm, alookup_aerase_self]

theorem foldl_canonStep_lookup (d : Nat) (a b : Site) (hab : a < b) :
    ∀ (ws : List Edge) (ts : Terms), ws.Nodup ∨ (b, a) ∉ ws →
      alookup (a, b) (ws.foldl (canonStep d) ts) =
        (if (b, a) ∈ ws then
          match alookup (b, a) ts with
          | some y => some (canonCombine d (alookup (a, b) ts) y)
          | none => alookup (a, b) ts
         else alookup (a, b) ts) := by
  intro ws
  induction ws with
  | nil =>
    intro ts _
    simp
  | cons w rest ih =>
    intro ts hcount
    rw [List.foldl_cons]
    by_cases hw : w = (b, a)
    · subst hw
      have hnotm : (b, a) ∉ rest := by
        rcases hcount with h | h
        · exact (List.nodup_cons.mp h).1
        · exact absurd (List.mem_cons_self _ _) h
      rw [ih _ (Or.inr hnotm)]
      rw [if_neg hnotm, if_pos (List.mem_cons_self _ _)]
      have hstep := canonStep_lookup_rev d ts a b hab
      rcases hlook : alookup (b, a) ts with _ | y
      · rw [hlook] at hstep
        simp only [hstep.1]
      · rw [hlook] at hstep
        simp only [hstep.1]
    · have hcount₂ : rest.Nodup ∨ (b, a) ∉ rest := by
        rcases hcount with h | h
        · exact Or.inl (List.nodup_cons.mp h).2
        · exact Or.inr fun hc => h (List.mem_cons_of_mem _ hc)
      rw [ih _ hcount₂]
      have hstep := canonStep_lookup_other d ts w a b hab hw
      have hmem : ((b, a) ∈ w :: rest) ↔ ((b, a) ∈ rest) := by
        constructor
        · intro hc
          rcases List.mem_cons.mp hc with hc | hc
          · exact absurd hc.symm hw
          · exact hc
        · exact List.mem_cons_of_mem _
      by_cases hmem₂ : (b, a) ∈ rest
      · rw [if_pos hmem₂, if_pos (hmem.mpr hmem₂), hstep.1, hstep.2]
      · rw [if_neg hmem₂, if_neg (fun hc => hmem₂ (hmem.mp hc)), hstep.1]

/-- C2: after `LocalHamGen` construction, every key of `terms` is a pair
`(a, b)` with `a < b`; a term supplied with key `(b, a)`, `b > a`, is
index-flipped (reshape to `(d, d, d, d)`, transpose axes `(1, 0, 3, 2)`,
reshape back to `(d*d, d*d)`, which swaps the bra/ket axis ordering of both
sites) and added elementwise to any existing `(a, b)` entry.  Hypotheses:
the input keys are genuine edges (two distinct sites) and the input is a
dict (no duplicate keys). -/
theorem C2_terms_canonical (d : Nat) (ts : Terms)
    (hdist : ∀ kv ∈ ts, kv.1.1 ≠ kv.1.2)
    (hnd : (ts.map Prod.fst).Nodup) :
    (∀ kv ∈ canonicalize d ts, kv.1.1 < kv.1.2)
    ∧ (∀ a b : Site, a < b →
        alookup (a, b) (canonicalize d ts) =
          match alookup (a, b) ts, alookup (b, a) ts with
          | some x, some y => some (opAdd x (flip d y))
          | some x, none => some x
          | none, some y => some (flip d y)
          | none, none => none)
    ∧ (∀ (x : Op) (i j : Nat),
        flip d x i j = x (i % d * d + i / d) (j % d * d + j / d)) := by
  refine ⟨?_, ?_, fun x i j => rfl⟩
  · refine foldl_canonStep_keys d (ts.map Prod.fst) ts ?_
    intro kv hkv
    exact Or.inr ⟨hdist kv hkv, List.mem_map_of_mem Prod.fst hkv⟩
  · intro a b hab
    rw [canonicalize, foldl_canonStep_lookup d a b hab _ ts (Or.inl hnd)]
    by_cases hmem : (b, a) ∈ ts.map Prod.fst
    · rw [if_pos hmem]
      rcases hlook : alookup (b, a) ts with _ | y
      · exact absurd hmem
          (fun _ => (alookup_ne_none_iff_mem_keys (b, a) ts).mpr hmem hlook)
      · rcases hfwd : alookup (a, b) ts with _ | x <;>
          simp [canonCombine, hfwd]
    · rw [if_neg hmem]
      have hnone : alookup (b, a) ts = none := by
        by_contra hc
        exact hmem ((alookup_ne_none_iff_mem_keys (b, a) ts).mp hc)
      rw [hnone]
      rcases hfwd : alookup (a, b) ts with _ | x <;> simp

/-- Sample operator entry functions used by witnesses. -/
def opA : Op := fun i j => (i : ℚ) + 4 * j

/-- A second sample operator entry function used by witnesses. -/
def opB : Op := fun i j => (i : ℚ) * j

/-- Witness for C2 at a concrete two-term dict with a reversed key. -/
theorem C2_terms_canonical_witness :
    (∀ kv ∈ [(((1 : Nat), (0 : Nat)), opA), ((0, 2), opB)], kv.1.1 ≠ kv.1.2)
    ∧ ([(((1 : Nat), (0 : Nat)), opA), ((0, 2), opB)].map Prod.fst).Nodup
    ∧ ((∀ kv ∈ canonicalize 2 [((1, 0), opA), ((0, 2), opB)],
          kv.1.1 < kv.1.2)
      ∧ (∀ a b : Site, a < b →
          alookup (a, b) (canonicalize 2 [((1, 0), opA), ((0, 2), opB)]) =
            match alookup (a, b) [((1, 0), opA), ((0, 2), opB)],
              alookup (b, a) [((1, 0), opA), ((0, 2), opB)] with
            | some x, some y => some (opAdd x (flip 2 y))
            | some x, none => some x
            | none, some y => some (flip 2 y)
            | none, none => none)
      ∧ (∀ (x : Op) (i j : Nat),
          flip 2 x i j = x (i % 2 * 2 + i / 2) (j % 2 * 2 + j / 2))) := by
  have hdist : ∀ kv ∈ [(((1 : Nat), (0 : Nat)), opA), ((0, 2), opB)],
      kv.1.1 ≠ kv.1.2 := by
    intro kv hkv
    rcases List.mem_cons.mp hkv with h | h
    · rw [h]
      decide
    · rcases List.mem_cons.mp h with h₂ | h₂
      · rw [h₂]
        decide
      · exact absurd h₂ (List.not_mem_nil _)
  have hnd : ([(((1 : Nat), (0 : Nat)), opA), ((0, 2), opB)].map
      Prod.fst).Nodup := by
    simp
  exact ⟨hdist, hnd, C2_terms_canonical 2 _ hdist hnd⟩

/-! ### One-body term folding in `LocalHamGen.__init__` -/

/-- Embedding of `quimb.core._identity_dense(d)` (via `eye`): the `d × d`
identity array. -/
def eye (dm : Nat) : Op := fun i j => if i = j ∧ i < dm then 1 else 0

/-- Modelled from the spec: `kron` is imported from `quimb.accel`, which is
not part of the sampled source.  The spec says each one-body operator is
"tensored with an identity on the other side", the standard Kronecker
product: `(A ⊗ B)[i₁·dB+i₂, j₁·dB+j₂] = A[i₁,j₁]·B[i₂,j₂]` where `dB` is the
dimension of the second factor. -/
def kron (dB : Nat) (A B : Op) : Op :=
  fun i j => A (i / dB) (j / dB) * B (i % dB) (j % dB)

/-- Embedding of `LocalHamGen._op_id_cached`: `X ⊗ I_d`. -/
def op_id (d : Nat) (x : Op) : Op := kron d x (eye d)

/-- Embedding of `LocalHamGen._id_op_cached`: `I_d ⊗ X`. -/
def id_op (d : Nat) (x : Op) : Op := kron d (eye d) x

/-- Embedding of
`self.sites = tuple(sorted(set(itertools.chain.from_iterable(self.terms))))`:
the sorted deduplicated list of all sites occurring in term keys. -/
def sitesOf (ts : Terms) : List Site :=
  ((ts.map fun kv => [kv.1.1, kv.1.2]).flatten.dedup).insertionSort (· ≤ ·)

/-- Embedding of `self._sites_to_covering_terms[site]`: the canonicalised
term keys (in dict order) that touch `site`. -/
def coveringPairs (keys : List Edge) (site : Site) : List Edge :=
  keys.filter fun w => w.1 = site ∨ w.2 = site

/-- The three accepted shapes of the `H1` argument: absent, a bare array
(default term for every site), or a dict of per-site terms with an optional
`None`-keyed default. -/
inductive H1Spec where
  | nothing : H1Spec
  | single (h : Op) : H1Spec
  | table (entries : List (Site × Op)) (dflt : Option Op) : H1Spec

/-- Embedding of the `H1` parsing in `LocalHamGen.__init__`: build the dict
`H1s`, pop the `None`-keyed default, and `setdefault` it for every site of
the lattice (appending missing keys in `self.sites` order). -/
def expandH1 (sites : List Site) : H1Spec → List (Site × Op)
  | .nothing => []
  | .single h => sites.map fun s => (s, h)
  | .table entries dflt =>
    match dflt with
    | none => entries
    | some h =>
      entries ++
        (sites.filter fun s => ¬s ∈ entries.map Prod.fst).map fun s => (s, h)

/-- The share of the one-body term `H` at `site` that is added to the
covering pair `pair`: `H_tensoreds[pair.index(site)]` (`H ⊗ I` if `site` is
the pair's first coordinate, else `I ⊗ H`), divided by the number of
covering pairs. -/
def h1Term (d : Nat) (site : Site) (H : Op) (pair : Edge) (numPairs : Nat) :
    Op :=
  opDiv (if pair.1 = site then op_id d H else id_op d H) numPairs

/-- The inner loop `for pair in pairs:` of the one-body absorption, updating
`self.terms[pair]` in place.  The `none` arm is unreachable because the
covering map is built from the term keys themselves. -/
def absorbSiteGo (d : Nat) (site : Site) (H : Op) (n : Nat) :
    Terms → List Edge → Terms
  | ts, [] => ts
  | ts, pair :: rest =>
    absorbSiteGo d site H n
      (match alookup pair ts with
        | some X => aset pair (opAdd X (h1Term d site H pair n)) ts
        | none => ts)
      rest

/-- One iteration of `for site, H in H1s.items()`. -/
def absorbSite (d : Nat) (site : Site) (H : Op) (pairs : List Edge)
    (ts : Terms) : Terms :=
  absorbSiteGo d site H pairs.length ts pairs

/-- The one-body absorption loop of `LocalHamGen.__init__`, raising
`ValueError` (as `Except.error`) when a one-body site is covered by no
two-body term. -/
def absorbH1s (d : Nat) (keys : List Edge) :
    Terms → List (Site × Op) → Except String Terms
  | ts, [] => .ok ts
  | ts, (site, H) :: rest =>
    let pairs := coveringPairs keys site
    if pairs.length = 0 then
      .error "There are no two site terms to add this single site term to"
    else
      absorbH1s d keys (absorbSite d site H pairs ts) rest

/-- Embedding of the whole of `LocalHamGen.__init__` acting on the `terms`
dict: canonicalise the two-body keys, then fold in the one-body terms. -/
def localHamGenInit (d : Nat) (H2 : Terms) (H1 : H1Spec) :
    Except String Terms :=
  absorbH1s d ((canonicalize d H2).map Prod.fst) (canonicalize d H2)
    (expandH1 (sitesOf H2) H1)

theorem absorbH1s_error_iff (d : Nat) (keys : List Edge) :
    ∀ (h1s : List (Site × Op)) (ts : Terms),
      (∃ e, absorbH1s d keys ts h1s = .error e) ↔
        ∃ sh ∈ h1s, coveringPairs keys sh.1 = [] := by
  intro h1s
  induction h1s with
  | nil =>
    intro ts
    constructor
    · intro hc
      rcases hc with ⟨e, he⟩
      exact Except.noConfusion he
    · intro hc
      rcases hc with ⟨sh, hmem, _⟩
      exact absurd hmem (List.not_mem_nil _)
  | cons sh rest ih =>
    intro ts
    obtain ⟨site, H⟩ := sh
    by_cases hz : (coveringPairs keys site).length = 0
    · rw [absorbH1s, if_pos hz]
      constructor
      · intro _
        exact ⟨(site, H), List.mem_cons_self _ _, List.length_eq_zero.mp hz⟩
      · intro _
        exact ⟨_, rfl⟩
    · rw [absorbH1s, if_neg hz]
      rw [ih]
      constructor
      · intro hc
        rcases hc with ⟨sh₂, hmem, hcov⟩
        exact ⟨sh₂, List.mem_cons_of_mem _ hmem, hcov⟩
      · intro hc
        rcases hc with ⟨sh₂, hmem, hcov⟩
        rcases List.mem_cons.mp hmem with hmem₂ | hmem₂
        · exfalso
          apply hz
          rw [hmem₂] at hcov
          simp only at hcov
          rw [hcov]
          rfl
        · exact ⟨sh₂, hmem₂, hcov⟩

theorem absorbSiteGo_lookup (d : Nat) (site : Site) (H : Op) (n : Nat) :
    ∀ (ps : List Edge) (ts : Terms) (k : Edge), ps.Nodup →
      alookup k (absorbSiteGo d site H n ts ps) =
        (if k ∈ ps then
          match alookup k ts with
          | some X => some (opAdd X (h1Term d site H k n))
          | none => none
         else alookup k ts) := by
  intro ps
  induction ps with
  | nil =>
    intro ts k _
    simp [absorbSiteGo]
  | cons p rest ih =>
    intro ts k hnd
    rw [absorbSiteGo]
    rw [ih _ k (List.nodup_cons.mp hnd).2]
    by_cases hk : k = p
    · subst hk
      have hnotm : k ∉ rest := (List.nodup_cons.mp hnd).1
      rw [if_neg hnotm, if_pos (List.mem_cons_self _ _)]
      rcases hlook : alookup k ts with _ | X
      · simp only [hlook]
      · simp only [hlook, alookup_aset_self]
    · have hmem : (k ∈ p :: rest) ↔ (k ∈ rest) := by
        constructor
        · intro hc
          rcases List.mem_cons.mp hc with hc | hc
          · exact absurd hc hk
          · exact hc
        · exact List.mem_cons_of_mem _
      have hpres : alookup k
          (match alookup p ts with
            | some X => aset p (opAdd X (h1Term d site H p n)) ts
            | none => ts) = alookup k ts := by
        rcases hlook : alookup p ts with _ | X
        · simp only [hlook]
        · simp only [hlook]
          exact alookup_aset_ne _ _ _ _ fun hc => hk hc.symm
      rw [hpres]
      by_cases hmem₂ : k ∈ rest
      · rw [if_pos hmem₂, if_pos (hmem.mpr hmem₂)]
      · rw [if_neg hmem₂, if_neg fun hc => hmem₂ (hmem.mp hc)]

theorem absorbH1s_lookup (d : Nat) (keys : List Edge) (hknd : keys.Nodup) :
    ∀ (h1s : List (Site × Op)) (ts final : Terms) (k : Edge) (X : Op),
      absorbH1s d keys ts h1s = .ok final →
      alookup k ts = some X →
      alookup k final = some
        ((h1s.filter fun sh => k ∈ coveringPairs keys sh.1).foldl
          (fun X₂ sh =>
            opAdd X₂ (h1Term d sh.1 sh.2 k (coveringPairs keys sh.1).length))
          X) := by
  intro h1s
  induction h1s with
  | nil =>
    intro ts final k X hok hX
    rw [absorbH1s] at hok
    simp only [List.filter_nil, List.foldl_nil]
    rw [← Except.ok.inj hok]
    exact hX
  | cons sh rest ih =>
    intro ts final k X hok hX
    obtain ⟨site, H⟩ := sh
    by_cases hz : (coveringPairs keys site).length = 0
    · rw [absorbH1s, if_pos hz] at hok
      exact Except.noConfusion hok
    · rw [absorbH1s, if_neg hz] at hok
      have hstep := absorbSiteGo_lookup d site H
        (coveringPairs keys site).length (coveringPairs keys site) ts k
        (List.Nodup.filter _ hknd)
      by_cases hmem : k ∈ coveringPairs keys site
      · rw [if_pos hmem, hX] at hstep
        have := ih _ final k _ hok hstep
        rw [this]
        have hfilter :
            ((site, H) :: rest).filter
                (fun sh => k ∈ coveringPairs keys sh.1) =
              (site, H) :: rest.filter
                (fun sh => k ∈ coveringPairs keys sh.1) := by
          rw [List.filter_cons]
          simp [hmem]
        rw [hfilter, List.foldl_cons]
      · rw [if_neg hmem, hX] at hstep
        have := ih _ final k _ hok hstep
        rw [this]
        have hfilter :
            ((site, H) :: rest).filter
                (fun sh => k ∈ coveringPairs keys sh.1) =
              rest.filter (fun sh => k ∈ coveringPairs keys sh.1) := by
          rw [List.filter_cons]
          simp [hmem]
        rw [hfilter]

/-- Keys of `aset` are keys of the input plus possibly `k`. -/
theorem mem_keys_aset {α β : Type} [DecidableEq α] (k : α) (v : β)
    (l : List (α × β)) (x : α) :
    x ∈ (aset k v l).map Prod.fst → x = k ∨ x ∈ l.map Prod.fst := by
  intro hx
  rcases List.mem_map.mp hx with ⟨kv, hkv, hfst⟩
  rcases mem_aset _ _ _ _ hkv with h | h
  · exact Or.inl (hfst ▸ h ▸ rfl)
  · exact Or.inr (hfst ▸ List.mem_map_of_mem Prod.fst h)

theorem mem_keys_aerase {α β : Type} [DecidableEq α] (k : α)
    (l : List (α × β)) (x : α) :
    x ∈ (aerase k l).map Prod.fst → x ∈ l.map Prod.fst := by
  intro hx
  rcases List.mem_map.mp hx with ⟨kv, hkv, hfst⟩
  exact hfst ▸ List.mem_map_of_mem Prod.fst (mem_aerase _ _ _ hkv).1

theorem nodup_keys_aset {α β : Type} [DecidableEq α] (k : α) (v : β)
    (l : List (α × β)) :
    (l.map Prod.fst).Nodup → ((aset k v l).map Prod.fst).Nodup := by
  induction l with
  | nil =>
    intro _
    simp [aset]
  | cons hd t ih =>
    obtain ⟨k₂, v₂⟩ := hd
    intro hnd
    rw [List.map_cons, List.nodup_cons] at hnd
    by_cases hk : k₂ = k
    · rw [aset, if_pos hk, List.map_cons, List.nodup_cons]
      exact ⟨hk ▸ hnd.1, hnd.2⟩
    · rw [aset, if_neg hk, List.map_cons, List.nodup_cons]
      refine ⟨?_, ih hnd.2⟩
      intro hc
      rcases mem_keys_aset k v t k₂ hc with h | h
      · exact hk h
      · exact hnd.1 h

theorem nodup_keys_aerase {α β : Type} [DecidableEq α] (k : α)
    (l : List (α × β)) :
    (l.map Prod.fst).Nodup → ((aerase k l).map Prod.fst).Nodup := by
  induction l with
  | nil =>
    intro _
    simp [aerase]
  | cons hd t ih =>
    obtain ⟨k₂, v₂⟩ := hd
    intro hnd
    rw [List.map_cons, List.nodup_cons] at hnd
    by_cases hk : k₂ = k
    · rw [aerase, if_pos hk]
      exact ih hnd.2
    · rw [aerase, if_neg hk, List.map_cons, List.nodup_cons]
      exact ⟨fun hc => hnd.1 (mem_keys_aerase k t k₂ hc), ih hnd.2⟩

theorem nodup_keys_canonStep (d : Nat) (ts : Terms) (w : Edge) :
    (ts.map Prod.fst).Nodup → ((canonStep d ts w).map Prod.fst).Nodup := by
  intro hnd
  by_cases hlt : w.1 < w.2
  · rw [canonStep, if_pos hlt]
    exact hnd
  · rw [canonStep, if_neg hlt]
    rcases hlook : alookup w ts with _ | X12 <;> simp only [hlook]
    · exact hnd
    · rcases hlook₂ : alookup (w.2, w.1) (aerase w ts) with _ | Y <;>
        simp only [hlook₂]
      · exact nodup_keys_aset _ _ _ (nodup_keys_aerase _ _ hnd)
      · exact nodup_keys_aset _ _ _ (nodup_keys_aerase _ _ hnd)

theorem nodup_keys_canonicalize (d : Nat) (ts : Terms) :
    (ts.map Prod.fst).Nodup → ((canonicalize d ts).map Prod.fst).Nodup := by
  intro hnd
  rw [canonicalize]
  have : ∀ (ws : List Edge) (ts₂ : Terms), (ts₂.map Prod.fst).Nodup →
      ((ws.foldl (canonStep d) ts₂).map Prod.fst).Nodup := by
    intro ws
    induction ws with
    | nil =>
      intro ts₂ h
      exact h
    | cons w rest ih =>
      intro ts₂ h
      rw [List.foldl_cons]
      exact ih _ (nodup_keys_canonStep d ts₂ w h)
  exact this _ _ hnd

/-- C7: `LocalHamGen` construction raises `ValueError` iff some site
carrying a one-body term (explicit, or via the default `None`-keyed term) is
covered by no two-body term; otherwise each one-body operator is tensored
with the identity on the appropriate side (`H ⊗ I` when the site is the
pair's first coordinate, `I ⊗ H` when the second) and divided by the number
of covering two-body terms before being added to each covering term. -/
theorem C7_one_body_folding (d : Nat) (H2 : Terms) (H1 : H1Spec)
    (hdist : ∀ kv ∈ H2, kv.1.1 ≠ kv.1.2)
    (hnd : (H2.map Prod.fst).Nodup) :
    ((∃ e, localHamGenInit d H2 H1 = .error e) ↔
      ∃ sh ∈ expandH1 (sitesOf H2) H1,
        coveringPairs ((canonicalize d H2).map Prod.fst) sh.1 = [])
    ∧ (∀ final, localHamGenInit d H2 H1 = .ok final →
        ∀ k X, alookup k (canonicalize d H2) = some X →
          alookup k final = some
            (((expandH1 (sitesOf H2) H1).filter fun sh =>
                k ∈ coveringPairs ((canonicalize d H2).map Prod.fst) sh.1).foldl
              (fun X₂ sh => opAdd X₂ (h1Term d sh.1 sh.2 k
                (coveringPairs ((canonicalize d H2).map Prod.fst)
                  sh.1).length))
              X)) := by
  constructor
  · exact absorbH1s_error_iff d _ _ _
  · intro final hok k X hX
    exact absorbH1s_lookup d _ (nodup_keys_canonicalize d H2 hnd) _ _ final
      k X hok hX

/-- Witness for C7: a single bond with a default one-body term on both
sites; construction succeeds. -/
theorem C7_one_body_folding_witness :
    (∀ kv ∈ [(((0 : Nat), (1 : Nat)), opA)], kv.1.1 ≠ kv.1.2)
    ∧ ([(((0 : Nat), (1 : Nat)), opA)].map Prod.fst).Nodup
    ∧ (((∃ e, localHamGenInit 1 [((0, 1), opA)] (.single opB) = .error e) ↔
        ∃ sh ∈ expandH1 (sitesOf [((0, 1), opA)]) (.single opB),
          coveringPairs
            ((canonicalize 1 [((0, 1), opA)]).map Prod.fst) sh.1 = [])
      ∧ (∀ final,
          localHamGenInit 1 [((0, 1), opA)] (.single opB) = .ok final →
          ∀ k X, alookup k (canonicalize 1 [((0, 1), opA)]) = some X →
            alookup k final = some
              (((expandH1 (sitesOf [((0, 1), opA)]) (.single opB)).filter
                  fun sh => k ∈ coveringPairs
                    ((canonicalize 1 [((0, 1), opA)]).map Prod.fst)
                    sh.1).foldl
                (fun X₂ sh => opAdd X₂ (h1Term 1 sh.1 sh.2 k
                  (coveringPairs
                    ((canonicalize 1 [((0, 1), opA)]).map Prod.fst)
                    sh.1).length))
                X))) := by
  have hdist : ∀ kv ∈ [(((0 : Nat), (1 : Nat)), opA)], kv.1.1 ≠ kv.1.2 := by
    intro kv hkv
    rcases List.mem_cons.mp hkv with h | h
    · rw [h]
      decide
    · exact absurd h (List.not_mem_nil _)
  have hnd : ([(((0 : Nat), (1 : Nat)), opA)].map Prod.fst).Nodup := by simp
  exact ⟨hdist, hnd,
    C7_one_body_folding 1 [((0, 1), opA)] (.single opB) hdist hnd⟩

/-! ### The `TEBDGen` / `SimpleUpdateGen` driver state machine

Floating-point scalars are idealised as a linear ordered field `K`; the
tensor-network state is an abstract type `P`; the
`ExponentialGeometricRollingDiffMean` statistic (defined in `quimb/utils.py`,
outside the sampled source) is an abstract state type `E` with an update and
a value function; operator arrays handled by the driver are an abstract type
`Arr`.  External numerical collaborators (`compute_local_expectation_cluster`,
`scipy.linalg.expm`, `gate_simple_`, `gauge_all_simple_`, `np.linalg.norm`)
are injected as function parameters. -/

/-- The gauge store: bond index (embedded as `Nat`) to singular-value
vector. -/
abbrev GaugeStore (K : Type) := List (Nat × List K)

/-- The `equilibrate_every` setting: an integer, `"layer"`, or `"gate"`. -/
inductive EqEvery where
  | num (k : Nat) : EqEvery
  | layerwise : EqEvery
  | gatewise : EqEvery

/-- The mutable attributes of a `TEBDGen` / `SimpleUpdateGen` driver (the
configuration attributes are carried in the same structure, as in Python). -/
structure SUState (K P E : Type) where
  psi : P
  gauges : GaugeStore K
  n : Nat
  its : List Nat
  taus : List K
  energies : List K
  energyDiffs : List K
  egrdm : E
  tauD : K
  lastTau : K
  stop : Bool
  bestEnergy : Option K
  bestState : Option (P × GaugeStore K)
  bestIt : Option Nat
  gaugesPrev : Option (GaugeStore K)
  gaugeDiffs : List K
  tol : Option K
  computeEnergyEvery : Option Nat
  computeEnergyFinal : Bool
  computeEnergyPerSite : Bool
  keepBest : Bool
  equilibrateEvery : EqEvery
  secondOrderReflect : Bool

/-- How evolution ended (or failed): `tau` never bound
(`UnboundLocalError` when `evolve` is called with `tau=None`), `tau[-1]` on
an empty sequence (`IndexError`), an uncaught error from inside an
iteration, the pre-sweep stop-flag break, a truthy callback return, the
post-sweep stop-flag break, or exhaustion of all `steps` iterations. -/
inductive EvolveOutcome where
  | noTauError : EvolveOutcome
  | emptyTauError : EvolveOutcome
  | raised (e : String) : EvolveOutcome
  | stoppedPreSweep : EvolveOutcome
  | stoppedByCallback : EvolveOutcome
  | stoppedPostSweep : EvolveOutcome
  | exhausted : EvolveOutcome
deriving DecidableEq

section Driver

variable {K : Type} [LinearOrderedField K]
variable {P E Arr : Type} [Inhabited Arr]
variable (computeEnergyFn : P → GaugeStore K → K)
variable (nsitesN : Nat)
variable (egrdmUpdate : E → K → E)
variable (egrdmValue : E → K)
variable (nrm : List K → K)
variable (ham : List (Edge × Arr))
variable (expmA : Arr → K → Arr)
variable (gateApply : P → GaugeStore K → Arr → Edge → P × GaugeStore K)
variable (equilibrateFn : P → GaugeStore K → GaugeStore K)
variable (callbackFn : Option (SUState K P E → Bool))
variable (postsweepFn : Nat → SUState K P E → Except String (SUState K P E))

/-- Embedding of `TEBDGen._check_energy` past the already-computed check:
append to `its`/`taus`/`energies`, update the best-state snapshot, update
the rolling difference statistic, append to `energy_diffs`, and set the stop
flag when `tol` is not `None`. -/
def checkEnergyCore (st : SUState K P E) : K × SUState K P E :=
  let en0 := computeEnergyFn st.psi st.gauges
  let en := if st.computeEnergyPerSite then en0 / (nsitesN : K) else en0
  let isBest : Bool := st.keepBest &&
    (match st.bestEnergy with
      | none => true
      | some b => decide (en < b))
  let egrdm₂ := egrdmUpdate st.egrdm en
  let ediff := egrdmValue egrdm₂
  let stop₂ := match st.tol with
    | some t => decide (ediff < t)
    | none => st.stop
  (en,
    { st with
      its := st.its ++ [st.n]
      taus := st.taus ++ [st.lastTau]
      energies := st.energies ++ [en]
      bestEnergy := if isBest then some en else st.bestEnergy
      bestState := if isBest then some (st.psi, st.gauges) else st.bestState
      bestIt := if isBest then some st.n else st.bestIt
      egrdm := egrdm₂
      energyDiffs := st.energyDiffs ++ [ediff]
      stop := stop₂ })

/-- Embedding of `TEBDGen._check_energy` (equivalently the `energy`
property): return the recorded energy unchanged when the sweep counter has
not advanced past the last recorded iteration, else recompute. -/
def checkEnergy (st : SUState K P E) : K × SUState K P E :=
  match st.its.getLast? with
  | some m =>
    if m = st.n then (st.energies.getLastD 0, st)
    else checkEnergyCore computeEnergyFn nsitesN egrdmUpdate egrdmValue st
  | none => checkEnergyCore computeEnergyFn nsitesN egrdmUpdate egrdmValue st

/-- Embedding of `self.postlayer()`: a no-op for `TEBDGen`; for
`SimpleUpdateGen` it equilibrates the gauges when
`equilibrate_every == "layer"`. -/
def postlayerStep (st : SUState K P E) : SUState K P E :=
  match st.equilibrateEvery with
  | .layerwise => { st with gauges := equilibrateFn st.psi st.gauges }
  | _ => st

/-- Embedding of `SimpleUpdateGen.gate`: apply the gate via `gate_simple_`
(the injected `gateApply`), then equilibrate when
`equilibrate_every == "gate"`. -/
def gateStep (st : SUState K P E) (G : Arr) (w : Edge) : SUState K P E :=
  let pg := gateApply st.psi st.gauges G w
  let st₂ := { st with psi := pg.1, gauges := pg.2 }
  match st₂.equilibrateEvery with
  | .gatewise => { st₂ with gauges := equilibrateFn st₂.psi st₂.gauges }
  | _ => st₂

/-- Embedding of `LocalHamGen.get_gate`: look up the sorted key.  (A missing
key raises `KeyError` in Python; the default value is never used by the
theorems below.) -/
def getGate (w : Edge) : Arr :=
  (alookup (if w.1 ≤ w.2 then w else (w.2, w.1)) ham).getD default

/-- The body of the `for where in ordering:` loop of `TEBDGen.sweep`,
threading the running layer of touched sites. -/
def sweepGo (factor : K) (tau : K) :
    SUState K P E → List Site → List Edge → SUState K P E
  | st, _, [] => postlayerStep equilibrateFn st
  | st, layer, w :: rest =>
    let p :=
      if w.1 ∈ layer ∨ w.2 ∈ layer then
        ([w.1, w.2], postlayerStep equilibrateFn st)
      else
        (w.1 :: w.2 :: layer, st)
    let st₂ := { p.2 with lastTau := tau }
    let G := expmA (getGate ham w) (-tau / factor)
    sweepGo factor tau (gateStep gateApply equilibrateFn st₂ G w) p.1 rest

/-- Embedding of `TEBDGen.sweep` for a scalar time step: reflect the
ordering and halve the time argument when `second_order_reflect` is set,
then iterate the gates. -/
def sweep (ordering : List Edge) (tau : K) (st : SUState K P E) :
    SUState K P E :=
  let p :=
    if st.secondOrderReflect then (ordering ++ ordering.reverse, (2 : K))
    else (ordering, (1 : K))
  sweepGo ham expmA gateApply equilibrateFn p.2 tau st [] p.1

/-- numpy subtraction of two 1-D float arrays, `g - g_prev`: elementwise
when the lengths match, broadcasting a length-1 operand across the other,
and `none` (numpy raises `ValueError`) when the lengths differ and neither
is 1. -/
def bsub (g gp : List K) : Option (List K) :=
  if g.length = gp.length then
    some (List.zipWith (fun x y => x - y) g gp)
  else if g.length = 1 then
    some (gp.map fun y => g.headD 0 - y)
  else if gp.length = 1 then
    some (g.map fun x => x - gp.headD 0)
  else
    none

/-- The per-bond difference computed by `SimpleUpdateGen.postsweep`:
`np.linalg.norm(g - g_prev)` with numpy broadcast subtraction, the
`ValueError` from non-broadcastable (both sizes differing and neither 1)
vectors caught and replaced by `1.0`, and an uncaught `KeyError` when the
bond is missing from the previous gauges. -/
def sdiffOf (prev : GaugeStore K) (kg : Nat × List K) : Except String K :=
  match alookup kg.1 prev with
  | none => .error "KeyError"
  | some gp =>
    match bsub kg.2 gp with
    | some d => .ok (nrm d)
    | none => .ok 1

/-- Python `max` over a list (raising `ValueError` on an empty one, hence
`Option`). -/
def maxOfList : List K → Option K
  | [] => none
  | x :: xs => some (xs.foldl max x)

/-- The `for k, g in self.gauges.items(): ... sdiffs.append(sdiff)` loop:
collect the per-bond differences, aborting at the first uncaught
exception. -/
def mapExcept {α β : Type} (f : α → Except String β) :
    List α → Except String (List β)
  | [] => .ok []
  | a :: l =>
    match f a with
    | .error e => .error e
    | .ok b =>
      match mapExcept f l with
      | .error e => .error e
      | .ok bs => .ok (b :: bs)

/-- The equilibration phase at the top of `SimpleUpdateGen.postsweep`:
equilibrate the gauges when `equilibrate_every` is a positive integer
dividing the iteration number. -/
def postsweepEq (i : Nat) (st : SUState K P E) : SUState K P E :=
  match st.equilibrateEvery with
  | .num k =>
    if 0 < k ∧ i % k = 0 then
      { st with gauges := equilibrateFn st.psi st.gauges }
    else st
  | _ => st

/-- Embedding of `SimpleUpdateGen.postsweep`, continued: beyond the first
sweep, append the maximum per-bond gauge difference and set the stop flag
when it falls below `tol`; finally record the current gauges as
`gauges_prev`. -/
def postsweep (i : Nat) (st : SUState K P E) :
    Except String (SUState K P E) :=
  let st₂ := postsweepEq equilibrateFn i st
  match st₂.gaugesPrev with
  | none => .ok { st₂ with gaugesPrev := some st₂.gauges }
  | some prev =>
    match mapExcept (sdiffOf nrm prev) st₂.gauges with
    | .error e => .error e
    | .ok sdiffs =>
      match maxOfList sdiffs with
      | none => .error "ValueError: max() arg is an empty sequence"
      | some maxSdiff =>
        .ok { st₂ with
          gaugeDiffs := st₂.gaugeDiffs ++ [maxSdiff]
          stop :=
            (match st₂.tol with
              | some t => if maxSdiff < t then true else st₂.stop
              | none => st₂.stop)
          gaugesPrev := some st₂.gauges }

/-- Embedding of `TEBDGen.postsweep`: a no-op. -/
def tebdPostsweep : Nat → SUState K P E → Except String (SUState K P E) :=
  fun _ st => .ok st

/-- The per-iteration energy phase of `TEBDGen.evolve`: every
`compute_energy_every` iterations, compute the energy and assign
`self.stop = (self.tol is not None) and (self.energy_diffs[-1] < self.tol)`. -/
def evolveEnergyPhase (i : Nat) (st : SUState K P E) : SUState K P E :=
  let shouldCE : Bool :=
    match st.computeEnergyEvery with
    | none => false
    | some k => decide (k ≠ 0) && decide (i % k = 0)
  if shouldCE then
    let st₃ :=
      (checkEnergy computeEnergyFn nsitesN egrdmUpdate egrdmValue st).2
    { st₃ with
      stop :=
        match st₃.tol with
        | some t => decide (st₃.energyDiffs.getLastD 0 < t)
        | none => false }
  else st

/-- The `if self.callback is not None: if self.callback(self): break` test
after each sweep. -/
def callbackHit (cb : Option (SUState K P E → Bool)) (st : SUState K P E) :
    Bool :=
  match cb with
  | some cb₂ => cb₂ st
  | none => false

/-- The `for i, tau in zip(range(steps), taus):` loop of `TEBDGen.evolve`,
by remaining fuel.  Errors raised inside an iteration propagate (only
`KeyboardInterrupt` is caught in Python). -/
def evolveLoop (ordering : List Edge) (tauAt : Nat → K) :
    Nat → Nat → SUState K P E → SUState K P E × EvolveOutcome
  | 0, _, st => (st, .exhausted)
  | fuel + 1, i, st =>
    let st₂ :=
      evolveEnergyPhase computeEnergyFn nsitesN egrdmUpdate egrdmValue i st
    if st₂.stop then ({ st₂ with stop := false }, .stoppedPreSweep)
    else
      let st₄ := sweep ham expmA gateApply equilibrateFn ordering (tauAt i) st₂
      match postsweepFn i st₄ with
      | .error e => (st₄, .raised e)
      | .ok st₅ =>
        let st₆ := { st₅ with n := st₅.n + 1 }
        if callbackHit callbackFn st₆ then (st₆, .stoppedByCallback)
        else if st₆.stop then ({ st₆ with stop := false }, .stoppedPostSweep)
        else
          evolveLoop ordering tauAt fuel (i + 1) st₆

/-- The final `if self.compute_energy_final: self._check_energy()` of
`evolve`, reached after normal loop exit or a `break` but not after an
uncaught error. -/
def evolveFinish (res : SUState K P E × EvolveOutcome) :
    SUState K P E × EvolveOutcome :=
  match res.2 with
  | .raised _ => res
  | _ =>
    if res.1.computeEnergyFinal then
      ((checkEnergy computeEnergyFn nsitesN egrdmUpdate egrdmValue res.1).2,
        res.2)
    else res

/-- Embedding of `TEBDGen.evolve(steps, tau)`.  With `tau=None` the local
name `taus` is never bound and the loop header raises before anything runs;
a scalar `tau` is stored in `self.tau` and repeated; a sequence is extended
by repeating its last element (`tau[-1]` raising at once if empty). -/
def evolve (ordering : List Edge) (steps : Nat) (tau : Option (K ⊕ List K))
    (st : SUState K P E) : SUState K P E × EvolveOutcome :=
  match tau with
  | none => (st, .noTauError)
  | some (.inl c) =>
    evolveFinish computeEnergyFn nsitesN egrdmUpdate egrdmValue
      (evolveLoop computeEnergyFn nsitesN egrdmUpdate egrdmValue ham expmA
        gateApply equilibrateFn callbackFn postsweepFn ordering (fun _ => c)
        steps 0 { st with tauD := c })
  | some (.inr l) =>
    match l.getLast? with
    | none => (st, .emptyTauError)
    | some last =>
      evolveFinish computeEnergyFn nsitesN egrdmUpdate egrdmValue
        (evolveLoop computeEnergyFn nsitesN egrdmUpdate egrdmValue ham expmA
          gateApply equilibrateFn callbackFn postsweepFn ordering
          (fun i => l.getD i last) steps 0 st)

end Driver

section DriverTheorems

variable {K : Type} [LinearOrderedField K]
variable {P E Arr : Type} [Inhabited Arr]

theorem checkEnergy_after_core (f : P → GaugeStore K → K) (ns : Nat)
    (u : E → K → E) (v : E → K) (st : SUState K P E) :
    checkEnergy f ns u v (checkEnergyCore f ns u v st).2 =
      checkEnergyCore f ns u v st := by
  have hits : (checkEnergyCore f ns u v st).2.its = st.its ++ [st.n] := rfl
  have hn : (checkEnergyCore f ns u v st).2.n = st.n := rfl
  have hens : (checkEnergyCore f ns u v st).2.energies =
      st.energies ++ [(checkEnergyCore f ns u v st).1] := rfl
  simp only [checkEnergy, hits, List.getLast?_concat, hn, if_pos, hens,
    List.getLastD_concat]

/-- C10: evaluating the `energy` property (`_check_energy`) twice with no
intervening sweep is idempotent: the second call returns the previously
recorded energy value and leaves the `its`, `taus`, `energies` and
`energy_diffs` histories (indeed the whole driver state) unchanged, because
the energy is recomputed only when the sweep counter has advanced past the
last recorded iteration. -/
theorem C10_energy_idempotent (f : P → GaugeStore K → K) (ns : Nat)
    (u : E → K → E) (v : E → K) (st : SUState K P E) :
    checkEnergy f ns u v (checkEnergy f ns u v st).2 =
      checkEnergy f ns u v st
    ∧ (checkEnergy f ns u v (checkEnergy f ns u v st).2).1 =
        (checkEnergy f ns u v st).1
    ∧ (checkEnergy f ns u v (checkEnergy f ns u v st).2).2.its =
        (checkEnergy f ns u v st).2.its
    ∧ (checkEnergy f ns u v (checkEnergy f ns u v st).2).2.taus =
        (checkEnergy f ns u v st).2.taus
    ∧ (checkEnergy f ns u v (checkEnergy f ns u v st).2).2.energies =
        (checkEnergy f ns u v st).2.energies
    ∧ (checkEnergy f ns u v (checkEnergy f ns u v st).2).2.energyDiffs =
        (checkEnergy f ns u v st).2.energyDiffs := by
  have hmain : checkEnergy f ns u v (checkEnergy f ns u v st).2 =
      checkEnergy f ns u v st := by
    rcases hlast : st.its.getLast? with _ | m
    · have h1 : checkEnergy f ns u v st = checkEnergyCore f ns u v st := by
        simp only [checkEnergy, hlast]
      rw [h1]
      exact checkEnergy_after_core f ns u v st
    · by_cases hm : m = st.n
      · have h1 : checkEnergy f ns u v st = (st.energies.getLastD 0, st) := by
          simp only [checkEnergy, hlast, if_pos hm]
        rw [h1]
        exact h1
      · have h1 : checkEnergy f ns u v st = checkEnergyCore f ns u v st := by
          simp only [checkEnergy, hlast, if_neg hm]
        rw [h1]
        exact checkEnergy_after_core f ns u v st
  exact ⟨hmain, congrArg Prod.fst hmain,
    congrArg (fun r => r.2.its) hmain, congrArg (fun r => r.2.taus) hmain,
    congrArg (fun r => r.2.energies) hmain,
    congrArg (fun r => r.2.energyDiffs) hmain⟩

/-- The instantiation of the abstract gate application that records the
sequence of `(where, gate)` calls made by `sweep` (the physical state `P`
being the call trace). -/
def recordGate : List (Edge × Arr) → GaugeStore K → Arr → Edge →
    List (Edge × Arr) × GaugeStore K :=
  fun tr g G w => (tr ++ [(w, G)], g)

theorem postlayerStep_psi (equilibrateFn : P → GaugeStore K → GaugeStore K)
    (st : SUState K P E) :
    (postlayerStep equilibrateFn st).psi = st.psi := by
  rw [postlayerStep]
  cases st.equilibrateEvery <;> rfl

theorem gateStep_record_psi
    (equilibrateFn : List (Edge × Arr) → GaugeStore K → GaugeStore K)
    (st : SUState K (List (Edge × Arr)) E) (G : Arr) (w : Edge) :
    (gateStep recordGate equilibrateFn st G w).psi = st.psi ++ [(w, G)] := by
  cases h : st.equilibrateEvery <;> simp [gateStep, recordGate, h]

theorem sweepGo_record_trace (ham : List (Edge × Arr))
    (expmA : Arr → K → Arr)
    (equilibrateFn : List (Edge × Arr) → GaugeStore K → GaugeStore K)
    (factor tau : K) :
    ∀ (es : List Edge) (st : SUState K (List (Edge × Arr)) E)
      (layer : List Site),
      (sweepGo ham expmA recordGate equilibrateFn factor tau st layer es).psi =
        st.psi ++ es.map fun w => (w, expmA (getGate ham w) (-tau / factor)) := by
  intro es
  induction es with
  | nil =>
    intro st layer
    simp only [sweepGo, List.map_nil, List.append_nil]
    exact postlayerStep_psi equilibrateFn st
  | cons w rest ih =>
    intro st layer
    by_cases hl : w.1 ∈ layer ∨ w.2 ∈ layer
    · simp only [sweepGo, if_pos hl]
      rw [ih, gateStep_record_psi]
      have hp : (postlayerStep equilibrateFn st).psi = st.psi :=
        postlayerStep_psi equilibrateFn st
      simp [hp, List.append_assoc]
    · simp only [sweepGo, if_neg hl]
      rw [ih, gateStep_record_psi]
      simp [List.append_assoc]

/-- C5: when `second_order_reflect` is `True`, `TEBDGen.sweep(tau)` iterates
the edge ordering followed by its exact reverse and computes every gate as
the matrix exponential of the edge term scaled by `-tau/2` (factor `2.0`);
when it is `False`, it iterates the ordering once with each gate scaled by
`-tau` (factor `1.0`).  Stated via the recording instantiation of the
abstract gate-application collaborator, so `.psi` is the exact sequence of
`(where, gate)` calls. -/
theorem C5_sweep_second_order_reflect (ham : List (Edge × Arr))
    (expmA : Arr → K → Arr)
    (equilibrateFn : List (Edge × Arr) → GaugeStore K → GaugeStore K)
    (ordering : List Edge) (tau : K)
    (st : SUState K (List (Edge × Arr)) E) :
    (sweep ham expmA recordGate equilibrateFn ordering tau
        { st with secondOrderReflect := true }).psi =
      st.psi ++ (ordering ++ ordering.reverse).map
        (fun w => (w, expmA (getGate ham w) (-tau / 2)))
    ∧ (sweep ham expmA recordGate equilibrateFn ordering tau
        { st with secondOrderReflect := false }).psi =
      st.psi ++ ordering.map (fun w => (w, expmA (getGate ham w) (-tau))) := by
  constructor
  · have h := sweepGo_record_trace ham expmA equilibrateFn 2 tau
      (ordering ++ ordering.reverse) { st with secondOrderReflect := true } []
    simp only [sweep]
    simpa using h
  · have h := sweepGo_record_trace ham expmA equilibrateFn 1 tau
      ordering { st with secondOrderReflect := false } []
    simp only [sweep]
    simpa [div_one] using h

theorem maxOfList_cons (x : K) (xs : List K) :
    maxOfList (x :: xs) = some (xs.foldl max x) := rfl

theorem mapM_sdiffOf_ok (nrm : List K → K) (prev : GaugeStore K) :
    ∀ gs : GaugeStore K, (∀ kg ∈ gs, alookup kg.1 prev ≠ none) →
      mapExcept (sdiffOf nrm prev) gs = .ok (gs.map fun kg =>
        match alookup kg.1 prev with
        | some gp =>
          match bsub kg.2 gp with
          | some d => nrm d
          | none => 1
        | none => 1) := by
  intro gs
  induction gs with
  | nil =>
    intro _
    rfl
  | cons kg rest ih =>
    intro h
    have hk := h kg (List.mem_cons_self _ _)
    have hrest := ih fun kg₂ h₂ => h kg₂ (List.mem_cons_of_mem _ h₂)
    rcases hlook : alookup kg.1 prev with _ | gp
    · exact absurd hlook hk
    · rcases hb : bsub kg.2 gp with _ | d
      · have hstep : sdiffOf nrm prev kg = .ok 1 := by
          simp [sdiffOf, hlook, hb]
        rw [mapExcept, hstep, hrest]
        simp [hlook, hb]
      · have hstep : sdiffOf nrm prev kg = .ok (nrm d) := by
          simp [sdiffOf, hlook, hb]
        rw [mapExcept, hstep, hrest]
        simp [hlook, hb]

theorem postsweepEq_fields (equilibrateFn : P → GaugeStore K → GaugeStore K)
    (i : Nat) (st : SUState K P E) :
    (postsweepEq equilibrateFn i st).stop = st.stop
    ∧ (postsweepEq equilibrateFn i st).tol = st.tol
    ∧ (postsweepEq equilibrateFn i st).gaugesPrev = st.gaugesPrev
    ∧ (postsweepEq equilibrateFn i st).gaugeDiffs = st.gaugeDiffs := by
  rw [postsweepEq]
  cases st.equilibrateEvery with
  | num k =>
    dsimp only
    by_cases h : 0 < k ∧ i % k = 0
    · rw [if_pos h]
      exact ⟨rfl, rfl, rfl, rfl⟩
    · rw [if_neg h]
      exact ⟨rfl, rfl, rfl, rfl⟩
  | layerwise => exact ⟨rfl, rfl, rfl, rfl⟩
  | gatewise => exact ⟨rfl, rfl, rfl, rfl⟩

/-- C3 (corrected): after every full sweep beyond the first,
`SimpleUpdateGen.postsweep` appends to `gauge_diffs` the maximum over bonds
of the *Euclidean norm* `np.linalg.norm(g - g_prev)` of the difference
between each bond's current and previous gauge vectors (`nrm` being the
injected `linalg.norm` primitive) — not the maximum absolute entry
difference claimed.  Vectors of differing size are subtracted with numpy
broadcasting when either has length 1; only the non-broadcastable case
(both sizes differing and neither 1) raises the caught `ValueError` and
makes the bond count as `1.0`.  When `tol` is not `None` and this maximum
falls below `tol`, the stop flag is set.  After the first sweep
(`gauges_prev` still `None`) nothing is appended.  The state is taken
relative to the equilibration phase `postsweepEq`, so interleaved gauge
equilibration is covered. -/
theorem C3_corrected_postsweep (nrm : List K → K)
    (equilibrateFn : P → GaugeStore K → GaugeStore K) (i : Nat)
    (st : SUState K P E) :
    (st.gaugesPrev = none →
      postsweep nrm equilibrateFn i st =
        .ok { postsweepEq equilibrateFn i st with
          gaugesPrev := some (postsweepEq equilibrateFn i st).gauges })
    ∧ (∀ prev, st.gaugesPrev = some prev →
        (∀ kg ∈ (postsweepEq equilibrateFn i st).gauges,
          alookup kg.1 prev ≠ none) →
        (postsweepEq equilibrateFn i st).gauges ≠ [] →
        ∃ M, maxOfList ((postsweepEq equilibrateFn i st).gauges.map fun kg =>
            match alookup kg.1 prev with
            | some gp =>
              match bsub kg.2 gp with
              | some d => nrm d
              | none => 1
            | none => 1) = some M
          ∧ postsweep nrm equilibrateFn i st =
              .ok { postsweepEq equilibrateFn i st with
                gaugeDiffs := st.gaugeDiffs ++ [M]
                stop := (match st.tol with
                  | some t => if M < t then true else st.stop
                  | none => st.stop)
                gaugesPrev :=
                  some (postsweepEq equilibrateFn i st).gauges }) := by
  have hf := postsweepEq_fields equilibrateFn i st
  constructor
  · intro hprev
    rw [postsweep]
    simp only [hf.2.2.1.trans hprev]
  · intro prev hprev hkeys hne
    obtain ⟨M, hM⟩ : ∃ M,
        maxOfList ((postsweepEq equilibrateFn i st).gauges.map fun kg =>
          match alookup kg.1 prev with
          | some gp =>
            match bsub kg.2 gp with
            | some d => nrm d
            | none => 1
          | none => 1) = some M := by
      rcases hgs : (postsweepEq equilibrateFn i st).gauges
        with _ | ⟨kg, rest⟩
      · exact absurd hgs hne
      · exact ⟨_, by rw [List.map_cons, maxOfList_cons]⟩
    refine ⟨M, hM, ?_⟩
    rw [postsweep]
    simp only [hf.2.2.1.trans hprev,
      mapM_sdiffOf_ok nrm prev (postsweepEq equilibrateFn i st).gauges hkeys,
      hM]
    rw [hf.2.2.2, hf.2.1, hf.1]

end DriverTheorems

/-- A concrete `SimpleUpdateGen` state over `ℚ` for the C3 witness: bond 0
changed from `[1, 1]` to `[3, 4]` (same size), bond 1 from `[1]` to
`[1, 2]` (broadcast of the length-1 previous vector), bond 2 from `[5, 5]`
to `[1, 2, 3]` (non-broadcastable, the caught-`ValueError` case);
`tol = None`, no scheduled equilibration. -/
def c3WitnessState : SUState ℚ Unit Unit :=
  { psi := (),
    gauges := [(0, [3, 4]), (1, [1, 2]), (2, [1, 2, 3])],
    n := 0, its := [], taus := [],
    energies := [], energyDiffs := [], egrdm := (), tauD := 0, lastTau := 0,
    stop := false, bestEnergy := none, bestState := none, bestIt := none,
    gaugesPrev := some [(0, [1, 1]), (1, [1]), (2, [5, 5])],
    gaugeDiffs := [], tol := none,
    computeEnergyEvery := none, computeEnergyFinal := true,
    computeEnergyPerSite := false, keepBest := false,
    equilibrateEvery := .num 0, secondOrderReflect := false }

/-- Witness for the corrected C3 at a concrete state and a concrete injected
norm. -/
theorem C3_corrected_postsweep_witness :
    c3WitnessState.gaugesPrev =
      some [(0, [1, 1]), (1, [1]), (2, [5, 5])]
    ∧ (∀ kg ∈ (postsweepEq (fun (_ : Unit) (g : GaugeStore ℚ) => g) 0
          c3WitnessState).gauges,
        alookup kg.1 [(0, [1, 1]), (1, [1]), (2, [5, 5])] ≠ none)
    ∧ (postsweepEq (fun (_ : Unit) (g : GaugeStore ℚ) => g) 0
        c3WitnessState).gauges ≠ []
    ∧ ∃ M, maxOfList ((postsweepEq (fun (_ : Unit) (g : GaugeStore ℚ) => g)
          0 c3WitnessState).gauges.map fun kg =>
        match alookup kg.1 [((0 : Nat), [(1 : ℚ), 1]), (1, [1]),
            (2, [5, 5])] with
        | some gp =>
          match bsub kg.2 gp with
          | some d => d.foldr (fun x acc => |x| + acc) 0
          | none => 1
        | none => 1) = some M
      ∧ postsweep (fun v => v.foldr (fun x acc => |x| + acc) 0)
          (fun _ g => g) 0 c3WitnessState =
          .ok { postsweepEq (fun (_ : Unit) (g : GaugeStore ℚ) => g) 0
              c3WitnessState with
            gaugeDiffs := c3WitnessState.gaugeDiffs ++ [M]
            stop := (match c3WitnessState.tol with
              | some t => if M < t then true else c3WitnessState.stop
              | none => c3WitnessState.stop)
            gaugesPrev := some (postsweepEq
              (fun (_ : Unit) (g : GaugeStore ℚ) => g) 0
              c3WitnessState).gauges } :=
  ⟨rfl, by decide, by decide,
    (C3_corrected_postsweep (fun v => v.foldr (fun x acc => |x| + acc) 0)
      (fun _ g => g) 0 c3WitnessState).2
      [(0, [1, 1]), (1, [1]), (2, [5, 5])] rfl (by decide) (by decide)⟩

/-- The mathematical idealisation of `np.linalg.norm` on a 1-D float array:
the Euclidean 2-norm. -/
noncomputable def norm2R (v : List ℝ) : ℝ :=
  Real.sqrt ((v.map fun x => x ^ 2).sum)

/-- The quantity claim C3 says is appended: the maximum over bonds of the
maximum absolute entry difference between the current and previous gauge
vector of each bond (a changed size counting as 1.0).  This definition
follows the claim's words, for comparison with the implementation. -/
noncomputable def specMaxAbsDiff (prev gauges : GaugeStore ℝ) : Option ℝ :=
  maxOfList (gauges.map fun kg =>
    match alookup kg.1 prev with
    | some gp =>
      if gp.length = kg.2.length then
        (maxOfList (List.zipWith (fun x y => |x - y|) kg.2 gp)).getD 0
      else 1
    | none => 1)

/-- A concrete `SimpleUpdateGen` state over `ℝ`: one bond whose gauge
vector changed from `[0, 0]` to `[3, 4]`. -/
noncomputable def c3CounterState : SUState ℝ Unit Unit :=
  { psi := (), gauges := [(0, [3, 4])], n := 0, its := [], taus := [],
    energies := [], energyDiffs := [], egrdm := (), tauD := 0, lastTau := 0,
    stop := false, bestEnergy := none, bestState := none, bestIt := none,
    gaugesPrev := some [(0, [0, 0])], gaugeDiffs := [], tol := none,
    computeEnergyEvery := none, computeEnergyFinal := true,
    computeEnergyPerSite := false, keepBest := false,
    equilibrateEvery := .num 0, secondOrderReflect := false }

/-- Counterexample to C3 as stated: with the gauge vector of the single
bond changing from `[0, 0]` to `[3, 4]`, `postsweep` appends
`np.linalg.norm([3, 4]) = 5` to `gauge_diffs`, whereas the claimed "maximum
over bonds of the max absolute difference" is `4`. -/
theorem C3_claim_counterexample :
    postsweep norm2R (fun _ g => g) 0 c3CounterState =
      .ok { c3CounterState with
        gaugeDiffs := [(5 : ℝ)]
        gaugesPrev := some [(0, [3, 4])] }
    ∧ specMaxAbsDiff [(0, [0, 0])] [(0, [3, 4])] = some 4
    ∧ (5 : ℝ) ≠ 4 := by
  have h5 : norm2R [(3 : ℝ), 4] = 5 := by
    have hsum : (([(3 : ℝ), 4]).map fun x => x ^ 2).sum = 25 := by
      norm_num
    rw [norm2R, hsum, show (25 : ℝ) = 5 ^ 2 by norm_num]
    exact Real.sqrt_sq (by norm_num)
  refine ⟨?_, ?_, by norm_num⟩
  · have hsd : sdiffOf norm2R [((0 : Nat), [(0 : ℝ), 0])]
        ((0 : Nat), [(3 : ℝ), 4]) = .ok 5 := by
      have hl : alookup (0 : Nat) [((0 : Nat), [(0 : ℝ), 0])] =
          some [(0 : ℝ), 0] := rfl
      simp [sdiffOf, bsub, hl, h5]
    have hmap : mapExcept (sdiffOf norm2R [(0, [0, 0])])
        c3CounterState.gauges = .ok [(5 : ℝ)] := by
      show mapExcept (sdiffOf norm2R [(0, [0, 0])])
        [((0 : Nat), [(3 : ℝ), 4])] = .ok [(5 : ℝ)]
      rw [mapExcept, hsd, mapExcept]
    have heqc : c3CounterState.equilibrateEvery = EqEvery.num 0 := rfl
    have hnoeq : postsweepEq (fun (_ : Unit) (g : GaugeStore ℝ) => g) 0
        c3CounterState = c3CounterState := by
      rw [postsweepEq, heqc]
      simp
    have hprev : c3CounterState.gaugesPrev = some [(0, [0, 0])] := rfl
    rw [postsweep, hnoeq]
    simp only [hprev, hmap]
    rfl
  · rw [specMaxAbsDiff]
    have habs : List.zipWith (fun x y => |x - y|) [(3 : ℝ), 4] [(0 : ℝ), 0] =
        [|(3 : ℝ) - 0|, |(4 : ℝ) - 0|] := rfl
    have h3 : |(3 : ℝ) - 0| = 3 := by norm_num
    have h4 : |(4 : ℝ) - 0| = 4 := by norm_num
    have hl : alookup (0 : Nat) [((0 : Nat), [(0 : ℝ), 0])] =
        some [(0 : ℝ), 0] := rfl
    simp only [List.map_cons, List.map_nil, hl, habs, h3, h4,
      List.length_cons, List.length_nil, if_pos rfl, if_true, maxOfList,
      List.foldl_cons, List.foldl_nil, Option.getD_some]
    rw [max_eq_right (by norm_num : (3 : ℝ) ≤ 4)]

section EvolveTheorems

variable {K : Type} [LinearOrderedField K]
variable {P E Arr : Type} [Inhabited Arr]
variable (f : P → GaugeStore K → K) (ns : Nat) (u : E → K → E) (v : E → K)
variable (nrm : List K → K)
variable (ham : List (Edge × Arr))
variable (expmA : Arr → K → Arr)
variable (gA : P → GaugeStore K → Arr → Edge → P × GaugeStore K)
variable (eqF : P → GaugeStore K → GaugeStore K)
variable (cb : Option (SUState K P E → Bool))
variable (psF : Nat → SUState K P E → Except String (SUState K P E))

theorem checkEnergyCore_tol (st : SUState K P E) :
    (checkEnergyCore f ns u v st).2.tol = st.tol := rfl

theorem checkEnergyCore_stop_none (st : SUState K P E) (h : st.tol = none) :
    (checkEnergyCore f ns u v st).2.stop = st.stop := by
  simp [checkEnergyCore, h]

theorem checkEnergy_tol (st : SUState K P E) :
    (checkEnergy f ns u v st).2.tol = st.tol := by
  rcases h : st.its.getLast? with _ | m <;> simp only [checkEnergy, h]
  · rfl
  · by_cases hm : m = st.n
    · rw [if_pos hm]
    · rw [if_neg hm]
      rfl

theorem checkEnergy_stop_none (st : SUState K P E) (h : st.tol = none) :
    (checkEnergy f ns u v st).2.stop = st.stop := by
  rcases hl : st.its.getLast? with _ | m <;> simp only [checkEnergy, hl]
  · exact checkEnergyCore_stop_none f ns u v st h
  · by_cases hm : m = st.n
    · rw [if_pos hm]
    · rw [if_neg hm]
      exact checkEnergyCore_stop_none f ns u v st h

theorem postlayerStep_stop_tol (st : SUState K P E) :
    (postlayerStep eqF st).stop = st.stop
    ∧ (postlayerStep eqF st).tol = st.tol := by
  rw [postlayerStep]
  cases st.equilibrateEvery <;> exact ⟨rfl, rfl⟩

theorem gateStep_stop_tol (st : SUState K P E) (G : Arr) (w : Edge) :
    (gateStep gA eqF st G w).stop = st.stop
    ∧ (gateStep gA eqF st G w).tol = st.tol := by
  cases h : st.equilibrateEvery <;> simp [gateStep, h]

theorem sweepGo_stop_tol (factor tau : K) :
    ∀ (es : List Edge) (st : SUState K P E) (layer : List Site),
      (sweepGo ham expmA gA eqF factor tau st layer es).stop = st.stop
      ∧ (sweepGo ham expmA gA eqF factor tau st layer es).tol = st.tol := by
  intro es
  induction es with
  | nil =>
    intro st layer
    simp only [sweepGo]
    exact postlayerStep_stop_tol eqF st
  | cons w rest ih =>
    intro st layer
    by_cases hl : w.1 ∈ layer ∨ w.2 ∈ layer
    · simp only [sweepGo, if_pos hl]
      have h1 := ih (gateStep gA eqF
        { postlayerStep eqF st with lastTau := tau }
        (expmA (getGate ham w) (-tau / factor)) w) [w.1, w.2]
      have h2 := gateStep_stop_tol gA eqF
        { postlayerStep eqF st with lastTau := tau }
        (expmA (getGate ham w) (-tau / factor)) w
      have h3 := postlayerStep_stop_tol eqF st
      exact ⟨h1.1.trans (h2.1.trans h3.1), h1.2.trans (h2.2.trans h3.2)⟩
    · simp only [sweepGo, if_neg hl]
      have h1 := ih (gateStep gA eqF { st with lastTau := tau }
        (expmA (getGate ham w) (-tau / factor)) w) (w.1 :: w.2 :: layer)
      have h2 := gateStep_stop_tol gA eqF { st with lastTau := tau }
        (expmA (getGate ham w) (-tau / factor)) w
      exact ⟨h1.1.trans h2.1, h1.2.trans h2.2⟩

theorem sweep_stop_tol (ordering : List Edge) (tau : K) (st : SUState K P E) :
    (sweep ham expmA gA eqF ordering tau st).stop = st.stop
    ∧ (sweep ham expmA gA eqF ordering tau st).tol = st.tol := by
  rw [sweep]
  exact sweepGo_stop_tol ham expmA gA eqF _ tau _ st []

theorem postsweep_stop_tol_none (i : Nat) (st st₅ : SUState K P E)
    (htol : st.tol = none)
    (hok : postsweep nrm eqF i st = .ok st₅) :
    st₅.stop = st.stop ∧ st₅.tol = none := by
  have hf := postsweepEq_fields eqF i st
  have htol₂ : (postsweepEq eqF i st).tol = none := hf.2.1.trans htol
  rw [postsweep] at hok
  rcases hprev : (postsweepEq eqF i st).gaugesPrev with _ | prev <;>
    simp only [hprev] at hok
  · rw [← Except.ok.inj hok]
    exact ⟨hf.1, htol₂⟩
  · rcases hmap : mapExcept (sdiffOf nrm prev) (postsweepEq eqF i st).gauges
      with e | sdiffs <;> simp only [hmap] at hok
    · exact Except.noConfusion hok
    · rcases hmax : maxOfList sdiffs with _ | M <;> simp only [hmax] at hok
      · exact Except.noConfusion hok
      · rw [← Except.ok.inj hok]
        refine ⟨?_, htol₂⟩
        show (match (postsweepEq eqF i st).tol with
          | some t => if M < t then true else (postsweepEq eqF i st).stop
          | none => (postsweepEq eqF i st).stop) = st.stop
        rw [htol₂]
        exact hf.1

theorem tebdPostsweep_stop_tol_none (i : Nat) (st st₅ : SUState K P E)
    (htol : st.tol = none)
    (hok : tebdPostsweep i st = .ok st₅) :
    st₅.stop = st.stop ∧ st₅.tol = none := by
  rw [tebdPostsweep] at hok
  rw [← Except.ok.inj hok]
  exact ⟨rfl, htol⟩

theorem evolveEnergyPhase_tol_none (i : Nat) (st : SUState K P E)
    (htol : st.tol = none) (hstop : st.stop = false) :
    (evolveEnergyPhase f ns u v i st).tol = none
    ∧ (evolveEnergyPhase f ns u v i st).stop = false := by
  rw [evolveEnergyPhase]
  by_cases h : (match st.computeEnergyEvery with
    | none => false
    | some k => decide (k ≠ 0) && decide (i % k = 0)) = true
  · simp only [h, if_true]
    have ht := (checkEnergy_tol f ns u v st).trans htol
    constructor
    · exact ht
    · show (match (checkEnergy f ns u v st).2.tol with
        | some t =>
          decide ((checkEnergy f ns u v st).2.energyDiffs.getLastD 0 < t)
        | none => false) = false
      rw [ht]
  · simp only [h, if_false]
    exact ⟨htol, hstop⟩

theorem evolveLoop_tol_none
    (hps : ∀ (i : Nat) (st st₅ : SUState K P E), st.tol = none →
      psF i st = .ok st₅ → st₅.stop = st.stop ∧ st₅.tol = none) :
    ∀ (ordering : List Edge) (tauAt : Nat → K) (fuel i : Nat)
      (st : SUState K P E), st.tol = none → st.stop = false →
      (evolveLoop f ns u v ham expmA gA eqF cb psF ordering tauAt
          fuel i st).2 ≠ .stoppedPreSweep
      ∧ (evolveLoop f ns u v ham expmA gA eqF cb psF ordering tauAt
          fuel i st).2 ≠ .stoppedPostSweep
      ∧ (evolveLoop f ns u v ham expmA gA eqF cb psF ordering tauAt
          fuel i st).1.stop = false
      ∧ (evolveLoop f ns u v ham expmA gA eqF cb psF ordering tauAt
          fuel i st).1.tol = none := by
  intro ordering tauAt fuel
  induction fuel with
  | zero =>
    intro i st htol hstop
    simp only [evolveLoop]
    exact ⟨by simp, by simp, hstop, htol⟩
  | succ fuel ih =>
    intro i st htol hstop
    have hph := evolveEnergyPhase_tol_none f ns u v i st htol hstop
    have hnostop : ¬((evolveEnergyPhase f ns u v i st).stop = true) := by
      rw [hph.2]
      exact Bool.false_ne_true
    simp only [evolveLoop, if_neg hnostop]
    have hsw := sweep_stop_tol ham expmA gA eqF ordering (tauAt i)
      (evolveEnergyPhase f ns u v i st)
    have hswstop : (sweep ham expmA gA eqF ordering (tauAt i)
        (evolveEnergyPhase f ns u v i st)).stop = false :=
      hsw.1.trans hph.2
    have hswtol : (sweep ham expmA gA eqF ordering (tauAt i)
        (evolveEnergyPhase f ns u v i st)).tol = none :=
      hsw.2.trans hph.1
    rcases hpost : psF i (sweep ham expmA gA eqF ordering (tauAt i)
        (evolveEnergyPhase f ns u v i st)) with e | st₅ <;>
      simp only [hpost]
    · exact ⟨by simp, by simp, hswstop, hswtol⟩
    · have h₅ := hps i _ st₅ hswtol hpost
      have h₆stop : ({ st₅ with n := st₅.n + 1 } : SUState K P E).stop =
          false := h₅.1.trans hswstop
      have h₆tol : ({ st₅ with n := st₅.n + 1 } : SUState K P E).tol =
          none := h₅.2
      by_cases hcb : callbackHit cb { st₅ with n := st₅.n + 1 } = true
      · simp only [hcb, if_true]
        exact ⟨by simp, by simp, h₆stop, h₆tol⟩
      · simp only [hcb, if_false]
        have hnostop₆ : ¬(({ st₅ with n := st₅.n + 1 } :
            SUState K P E).stop = true) := by
          rw [h₆stop]
          exact Bool.false_ne_true
        simp only [if_neg hnostop₆]
        exact ih (i + 1) { st₅ with n := st₅.n + 1 } h₆tol h₆stop

theorem evolveFinish_outcome (res : SUState K P E × EvolveOutcome) :
    (evolveFinish f ns u v res).2 = res.2 := by
  rcases res with ⟨st, out⟩
  rw [evolveFinish]
  split
  · rfl
  · split <;> rfl

theorem evolveFinish_stop_none (res : SUState K P E × EvolveOutcome)
    (htol : res.1.tol = none) :
    (evolveFinish f ns u v res).1.stop = res.1.stop
    ∧ (evolveFinish f ns u v res).1.tol = none := by
  rcases res with ⟨st, out⟩
  rw [evolveFinish]
  split
  · exact ⟨rfl, htol⟩
  · split
    · exact ⟨checkEnergy_stop_none f ns u v st htol,
        (checkEnergy_tol f ns u v st).trans htol⟩
    · exact ⟨rfl, htol⟩

theorem evolveLoop_outcome_not_tau :
    ∀ (ordering : List Edge) (tauAt : Nat → K) (fuel i : Nat)
      (st : SUState K P E),
      (evolveLoop f ns u v ham expmA gA eqF cb psF ordering tauAt
          fuel i st).2 ≠ .noTauError
      ∧ (evolveLoop f ns u v ham expmA gA eqF cb psF ordering tauAt
          fuel i st).2 ≠ .emptyTauError := by
  intro ordering tauAt fuel
  induction fuel with
  | zero =>
    intro i st
    simp only [evolveLoop]
    exact ⟨by simp, by simp⟩
  | succ fuel ih =>
    intro i st
    simp only [evolveLoop]
    split
    · exact ⟨by simp, by simp⟩
    · split
      · exact ⟨by simp, by simp⟩
      · split
        · exact ⟨by simp, by simp⟩
        · split
          · exact ⟨by simp, by simp⟩
          · exact ih (i + 1) _

theorem evolve_tol_none_helper
    (hps : ∀ (i : Nat) (st₀ st₅ : SUState K P E), st₀.tol = none →
      psF i st₀ = .ok st₅ → st₅.stop = st₀.stop ∧ st₅.tol = none)
    (ordering : List Edge) (steps : Nat) (tau : Option (K ⊕ List K))
    (st : SUState K P E) (htol : st.tol = none) (hstop : st.stop = false) :
    (evolve f ns u v ham expmA gA eqF cb psF ordering steps tau st).2 ≠
        .stoppedPreSweep
    ∧ (evolve f ns u v ham expmA gA eqF cb psF ordering steps tau st).2 ≠
        .stoppedPostSweep
    ∧ (evolve f ns u v ham expmA gA eqF cb psF ordering steps tau
        st).1.stop = false := by
  rcases tau with _ | (c | l)
  · simp only [evolve]
    exact ⟨by simp, by simp, hstop⟩
  · simp only [evolve]
    have hloop := evolveLoop_tol_none f ns u v ham expmA gA eqF cb psF hps
      ordering (fun _ => c) steps 0 { st with tauD := c } htol hstop
    have hout := evolveFinish_outcome f ns u v
      (evolveLoop f ns u v ham expmA gA eqF cb psF ordering (fun _ => c)
        steps 0 { st with tauD := c })
    have hsn := evolveFinish_stop_none f ns u v
      (evolveLoop f ns u v ham expmA gA eqF cb psF ordering (fun _ => c)
        steps 0 { st with tauD := c }) hloop.2.2.2
    refine ⟨?_, ?_, hsn.1.trans hloop.2.2.1⟩
    · rw [hout]
      exact hloop.1
    · rw [hout]
      exact hloop.2.1
  · simp only [evolve]
    rcases hl : l.getLast? with _ | last <;> simp only [hl]
    · exact ⟨by simp, by simp, hstop⟩
    · have hloop := evolveLoop_tol_none f ns u v ham expmA gA eqF cb psF hps
        ordering (fun i => l.getD i last) steps 0 st htol hstop
      have hout := evolveFinish_outcome f ns u v
        (evolveLoop f ns u v ham expmA gA eqF cb psF ordering
          (fun i => l.getD i last) steps 0 st)
      have hsn := evolveFinish_stop_none f ns u v
        (evolveLoop f ns u v ham expmA gA eqF cb psF ordering
          (fun i => l.getD i last) steps 0 st) hloop.2.2.2
      refine ⟨?_, ?_, hsn.1.trans hloop.2.2.1⟩
      · rw [hout]
        exact hloop.1
      · rw [hout]
        exact hloop.2.1

/-- C4: for every run of `TEBDGen`/`SimpleUpdateGen.evolve` started with
`tol=None` (and a clear stop flag), the internal stop flag is never set by
a convergence-tolerance check — neither the pre-sweep break fed by the
energy-difference statistic of `_check_energy` nor the post-sweep break fed
by the gauge-difference check of `postsweep` ever fires — so evolution ends
only by a truthy callback return, by exhausting all `steps` iterations, or
by an uncaught runtime error, and the stop flag is still clear at the end.
Stated for both the `SimpleUpdateGen` postsweep and the no-op `TEBDGen`
postsweep. -/
theorem C4_evolve_tol_none_never_tolerance_stop
    (ordering : List Edge) (steps : Nat) (tau : Option (K ⊕ List K))
    (st : SUState K P E) (htol : st.tol = none) (hstop : st.stop = false) :
    ((evolve f ns u v ham expmA gA eqF cb (postsweep nrm eqF) ordering steps
        tau st).2 ≠ .stoppedPreSweep
      ∧ (evolve f ns u v ham expmA gA eqF cb (postsweep nrm eqF) ordering
          steps tau st).2 ≠ .stoppedPostSweep
      ∧ (evolve f ns u v ham expmA gA eqF cb (postsweep nrm eqF) ordering
          steps tau st).1.stop = false)
    ∧ ((evolve f ns u v ham expmA gA eqF cb tebdPostsweep ordering steps
        tau st).2 ≠ .stoppedPreSweep
      ∧ (evolve f ns u v ham expmA gA eqF cb tebdPostsweep ordering steps
          tau st).2 ≠ .stoppedPostSweep
      ∧ (evolve f ns u v ham expmA gA eqF cb tebdPostsweep ordering steps
          tau st).1.stop = false) :=
  ⟨evolve_tol_none_helper f ns u v ham expmA gA eqF cb (postsweep nrm eqF)
      (fun i st₀ st₅ => postsweep_stop_tol_none nrm eqF i st₀ st₅) ordering
      steps tau st htol hstop,
    evolve_tol_none_helper f ns u v ham expmA gA eqF cb tebdPostsweep
      (fun i st₀ st₅ => tebdPostsweep_stop_tol_none i st₀ st₅) ordering
      steps tau st htol hstop⟩

/-- C9: calling `evolve(steps)` with `tau` left as its default `None`
raises (`taus` is never bound) before any sweep or energy computation is
performed — the driver state is returned unchanged; `evolve` only proceeds
when a non-`None` `tau` is supplied, either a scalar repeated every step or
a sequence extended by repeating its last element (an empty sequence
raising `IndexError` at `tau[-1]`, also before anything runs). -/
theorem C9_evolve_requires_tau (ordering : List Edge) (steps : Nat)
    (st : SUState K P E) :
    evolve f ns u v ham expmA gA eqF cb psF ordering steps none st =
      (st, .noTauError)
    ∧ (∀ c : K,
        (evolve f ns u v ham expmA gA eqF cb psF ordering steps
            (some (.inl c)) st).2 ≠ .noTauError
        ∧ (evolve f ns u v ham expmA gA eqF cb psF ordering steps
            (some (.inl c)) st).2 ≠ .emptyTauError)
    ∧ (∀ l : List K, l ≠ [] →
        (evolve f ns u v ham expmA gA eqF cb psF ordering steps
            (some (.inr l)) st).2 ≠ .noTauError
        ∧ (evolve f ns u v ham expmA gA eqF cb psF ordering steps
            (some (.inr l)) st).2 ≠ .emptyTauError)
    ∧ evolve f ns u v ham expmA gA eqF cb psF ordering steps
        (some (.inr [])) st = (st, .emptyTauError) := by
  refine ⟨rfl, ?_, ?_, rfl⟩
  · intro c
    simp only [evolve]
    have hloop := evolveLoop_outcome_not_tau f ns u v ham expmA gA eqF cb
      psF ordering (fun _ => c) steps 0 { st with tauD := c }
    have hout := evolveFinish_outcome f ns u v
      (evolveLoop f ns u v ham expmA gA eqF cb psF ordering (fun _ => c)
        steps 0 { st with tauD := c })
    rw [hout]
    exact hloop
  · intro l hl
    obtain ⟨last, hlast⟩ : ∃ last, l.getLast? = some last :=
      Option.isSome_iff_exists.mp (List.getLast?_isSome.mpr hl)
    simp only [evolve, hlast]
    have hloop := evolveLoop_outcome_not_tau f ns u v ham expmA gA eqF cb
      psF ordering (fun i => l.getD i last) steps 0 st
    have hout := evolveFinish_outcome f ns u v
      (evolveLoop f ns u v ham expmA gA eqF cb psF ordering
        (fun i => l.getD i last) steps 0 st)
    rw [hout]
    exact hloop

end EvolveTheorems

/-- A concrete driver state over `ℚ` with `tol = None` and a clear stop
flag, used by the evolve witnesses. -/
def qDriverState : SUState ℚ Unit Unit :=
  { psi := (), gauges := [], n := 0, its := [], taus := [], energies := [],
    energyDiffs := [], egrdm := (), tauD := 0, lastTau := 0, stop := false,
    bestEnergy := none, bestState := none, bestIt := none,
    gaugesPrev := none, gaugeDiffs := [], tol := none,
    computeEnergyEvery := none, computeEnergyFinal := false,
    computeEnergyPerSite := false, keepBest := false,
    equilibrateEvery := .num 0, secondOrderReflect := false }

/-- A trivial concrete energy estimator over `ℚ`. -/
def qEnergyFn : Unit → GaugeStore ℚ → ℚ := fun _ _ => 0

/-- A trivial concrete norm primitive over `ℚ`. -/
def qNrm : List ℚ → ℚ := fun _ => 0

/-- An empty concrete Hamiltonian term dict. -/
def qHam : List (Edge × Unit) := []

/-- A trivial concrete matrix exponential. -/
def qExpm : Unit → ℚ → Unit := fun a _ => a

/-- A trivial concrete gate application. -/
def qGate : Unit → GaugeStore ℚ → Unit → Edge → Unit × GaugeStore ℚ :=
  fun p g _ _ => (p, g)

/-- A trivial concrete gauge equilibration. -/
def qEq : Unit → GaugeStore ℚ → GaugeStore ℚ := fun _ g => g

/-- A trivial concrete rolling-difference update. -/
def qU : Unit → ℚ → Unit := fun e _ => e

/-- A trivial concrete rolling-difference value. -/
def qV : Unit → ℚ := fun _ => 0

/-- Witness for C4 at a concrete two-step run with a scalar time step. -/
theorem C4_evolve_tol_none_never_tolerance_stop_witness :
    qDriverState.tol = none ∧ qDriverState.stop = false
    ∧ (((evolve qEnergyFn 1 qU qV qHam qExpm qGate qEq none
          (postsweep qNrm qEq) [] 2 (some (.inl 1)) qDriverState).2 ≠
            .stoppedPreSweep
        ∧ (evolve qEnergyFn 1 qU qV qHam qExpm qGate qEq none
            (postsweep qNrm qEq) [] 2 (some (.inl 1)) qDriverState).2 ≠
              .stoppedPostSweep
        ∧ (evolve qEnergyFn 1 qU qV qHam qExpm qGate qEq none
            (postsweep qNrm qEq) [] 2 (some (.inl 1))
            qDriverState).1.stop = false)
      ∧ ((evolve qEnergyFn 1 qU qV qHam qExpm qGate qEq none tebdPostsweep
            [] 2 (some (.inl 1)) qDriverState).2 ≠ .stoppedPreSweep
        ∧ (evolve qEnergyFn 1 qU qV qHam qExpm qGate qEq none tebdPostsweep
            [] 2 (some (.inl 1)) qDriverState).2 ≠ .stoppedPostSweep
        ∧ (evolve qEnergyFn 1 qU qV qHam qExpm qGate qEq none tebdPostsweep
            [] 2 (some (.inl 1)) qDriverState).1.stop = false)) :=
  ⟨rfl, rfl,
    C4_evolve_tol_none_never_tolerance_stop qEnergyFn 1 qU qV qNrm qHam
      qExpm qGate qEq none [] 2 (some (.inl 1)) qDriverState rfl rfl⟩

/-- Witness for C9 at a concrete run: `tau=None` errors with the state
unchanged, a nonempty tau sequence proceeds. -/
theorem C9_evolve_requires_tau_witness :
    ((1 : ℚ) :: [] ≠ [])
    ∧ evolve qEnergyFn 1 qU qV qHam qExpm qGate qEq none tebdPostsweep []
        3 none qDriverState = (qDriverState, .noTauError)
    ∧ ((evolve qEnergyFn 1 qU qV qHam qExpm qGate qEq none tebdPostsweep []
          3 (some (.inr [1])) qDriverState).2 ≠ .noTauError
      ∧ (evolve qEnergyFn 1 qU qV qHam qExpm qGate qEq none tebdPostsweep []
          3 (some (.inr [1])) qDriverState).2 ≠ .emptyTauError) :=
  ⟨by decide,
    (C9_evolve_requires_tau qEnergyFn 1 qU qV qHam qExpm qGate qEq none
      tebdPostsweep [] 3 qDriverState).1,
    (C9_evolve_requires_tau qEnergyFn 1 qU qV qHam qExpm qGate qEq none
      tebdPostsweep [] 3 qDriverState).2.2.1 [1] (by decide)⟩

/-! ### Gauge update in `TensorNetworkGenVector.gate_simple_` -/

section GateSimple

variable {K : Type} [LinearOrderedField K]
variable {P Arr : Type}
variable (nrm : List K → K)
variable (numTids : P → List Site → Nat)
variable (gateDirect : P → Arr → List Site → P)
variable (gateSplit : P → Arr → List Site → P × Nat × List K)

/-- Embedding of `TensorNetworkGenVector.gate_simple_`.  The tensor network
is an abstract `P`; `numTids` models `len(self._get_tids_from_tags(...))`;
`gateDirect` models the single-tensor branch `self.gate_(G, where,
contract=True)` (which touches no gauges); `gateSplit` models the
temporarily-gauged `reduce-split` gate application, returning the new
network together with the single `info` entry `((.., ix), s)`: the touched
bond index and its new singular-value vector.  If `renorm` is set the
vector is divided by its norm before being stored back into `gauges[ix]`. -/
def gate_simple (G : Arr) (wh : List Site) (psi : P) (gauges : GaugeStore K)
    (renorm : Bool) : P × GaugeStore K :=
  if numTids psi wh = 1 then (gateDirect psi G wh, gauges)
  else
    let r := gateSplit psi G wh
    let s := r.2.2
    let s₂ := if renorm then s.map fun x => x / nrm s else s
    (r.1, aset r.2.1 s₂ gauges)

end GateSimple

theorem sumSq_nonneg (v : List ℝ) : 0 ≤ (v.map fun x => x ^ 2).sum :=
  List.sum_nonneg fun x hx => by
    rcases List.mem_map.mp hx with ⟨y, _, rfl⟩
    exact sq_nonneg y

theorem norm2R_sq (v : List ℝ) :
    norm2R v ^ 2 = (v.map fun x => x ^ 2).sum := by
  rw [norm2R]
  exact Real.sq_sqrt (sumSq_nonneg v)

theorem sumSq_map_div (v : List ℝ) (c : ℝ) :
    ((v.map fun x => x / c).map fun x => x ^ 2).sum =
      (v.map fun x => x ^ 2).sum / c ^ 2 := by
  induction v with
  | nil => simp
  | cons x xs ih =>
    simp only [List.map_cons, List.sum_cons, ih, div_pow]
    ring

theorem norm2R_normalize (v : List ℝ) (h : norm2R v ≠ 0) :
    norm2R (v.map fun x => x / norm2R v) = 1 := by
  have hsq : (v.map fun x => x ^ 2).sum ≠ 0 := by
    intro hc
    apply h
    rw [norm2R, hc, Real.sqrt_zero]
  rw [norm2R, sumSq_map_div, norm2R_sq, div_self hsq, Real.sqrt_one]

/-- C6: after `gate_simple_` applies a two-site gate with `renorm=True`
(the two-tensor branch), the gauge dictionary entry for the one touched
bond `ix` is overwritten with the new singular-value vector divided by its
2-norm, so every gauge vector written by gate application has unit 2-norm
(whenever the singular-value vector is nonzero); with `renorm=False` the
unnormalised singular-value vector is stored.  No other bond's entry
changes, and the single-tensor branch leaves the gauges untouched. -/
theorem C6_gate_simple_renorm {P Arr : Type}
    (numTids : P → List Site → Nat) (gateDirect : P → Arr → List Site → P)
    (gateSplit : P → Arr → List Site → P × Nat × List ℝ)
    (G : Arr) (wh : List Site) (psi : P) (gauges : GaugeStore ℝ)
    (h2 : numTids psi wh ≠ 1) :
    (alookup (gateSplit psi G wh).2.1
        (gate_simple norm2R numTids gateDirect gateSplit G wh psi gauges
          true).2 =
      some ((gateSplit psi G wh).2.2.map fun x =>
        x / norm2R (gateSplit psi G wh).2.2))
    ∧ (norm2R (gateSplit psi G wh).2.2 ≠ 0 →
        norm2R ((gateSplit psi G wh).2.2.map fun x =>
          x / norm2R (gateSplit psi G wh).2.2) = 1)
    ∧ (alookup (gateSplit psi G wh).2.1
        (gate_simple norm2R numTids gateDirect gateSplit G wh psi gauges
          false).2 = some (gateSplit psi G wh).2.2)
    ∧ (∀ k, k ≠ (gateSplit psi G wh).2.1 → ∀ b : Bool,
        alookup k (gate_simple norm2R numTids gateDirect gateSplit G wh psi
          gauges b).2 = alookup k gauges)
    ∧ (∀ psi₂, numTids psi₂ wh = 1 →
        (gate_simple norm2R numTids gateDirect gateSplit G wh psi₂ gauges
          true).2 = gauges) := by
  refine ⟨?_, norm2R_normalize _, ?_, ?_, ?_⟩
  · rw [gate_simple, if_neg h2]
    exact alookup_aset_self _ _ _
  · rw [gate_simple, if_neg h2]
    exact alookup_aset_self _ _ _
  · intro k hk b
    rw [gate_simple]
    rw [if_neg h2]
    exact alookup_aset_ne _ _ _ _ fun hc => hk hc.symm
  · intro psi₂ h1
    rw [gate_simple, if_pos h1]

/-- Witness for C6 with a concrete split result `s = [3, 4]` of norm 5. -/
theorem C6_gate_simple_renorm_witness :
    ((fun (_ : Unit) (_ : List Site) => 2) () [0, 1] ≠ 1)
    ∧ norm2R [(3 : ℝ), 4] ≠ 0
    ∧ (alookup ((fun (_ : Unit) (_ : Unit) (_ : List Site) =>
          ((), 0, [(3 : ℝ), 4])) () () [0, 1]).2.1
        (gate_simple norm2R (fun _ _ => 2) (fun p _ _ => p)
          (fun _ _ _ => ((), 0, [(3 : ℝ), 4])) () [0, 1] () [] true).2 =
      some (((fun (_ : Unit) (_ : Unit) (_ : List Site) =>
          ((), 0, [(3 : ℝ), 4])) () () [0, 1]).2.2.map fun x =>
        x / norm2R ((fun (_ : Unit) (_ : Unit) (_ : List Site) =>
          ((), 0, [(3 : ℝ), 4])) () () [0, 1]).2.2))
    ∧ norm2R ([(3 : ℝ), 4].map fun x => x / norm2R [(3 : ℝ), 4]) = 1 := by
  have h5 : norm2R [(3 : ℝ), 4] = 5 := by
    have hsum : (([(3 : ℝ), 4]).map fun x => x ^ 2).sum = 25 := by
      norm_num
    rw [norm2R, hsum, show (25 : ℝ) = 5 ^ 2 by norm_num]
    exact Real.sqrt_sq (by norm_num)
  have hne : norm2R [(3 : ℝ), 4] ≠ 0 := by
    rw [h5]
    norm_num
  have happ := C6_gate_simple_renorm (fun (_ : Unit) (_ : List Site) => 2)
    (fun p _ _ => p) (fun _ _ _ => ((), 0, [(3 : ℝ), 4])) () [0, 1] () []
    (by decide)
  exact ⟨by decide, hne, happ.1, happ.2.1 hne⟩

/-! ### Deterministic batch expectations
(`_compute_expecs_maybe_in_parallel`) -/

/-- An injected executor (`submit`/`scatter` interface): `scatter`
distributes the read-only network, `hasScatter` models
`hasattr(executor, "scatter")`.  `future.result()` of a submitted pure
computation returns that computation's value, whatever the completion
order. -/
structure ExecutorModel (TN : Type) where
  scatter : TN → TN
  hasScatter : Bool

/-- Embedding of `_compute_expecs_maybe_in_parallel` up to the key-to-value
mapping `expecs = dict(zip(terms.keys(), results))`: serially, `results` is
a generator over the dict items; with an executor, futures are submitted in
dict order (the network possibly scattered first) and results are gathered
by order of submission, not completion. -/
def computeExpecsMaybeInParallel {TN V Arr : Type}
    (fn : TN → Arr → Edge → V) (tn : TN) (terms : List (Edge × Arr))
    (executor : Option (ExecutorModel TN)) : List (Edge × V) :=
  match executor with
  | none =>
    List.zip (terms.map Prod.fst) (terms.map fun wG => fn tn wG.2 wG.1)
  | some ex =>
    let tn₂ := if ex.hasScatter then ex.scatter tn else tn
    let futures := terms.map fun wG => fn tn₂ wG.2 wG.1
    List.zip (terms.map Prod.fst) futures

theorem zip_keys_map {α β γ : Type} (l : List (α × β)) (g : α × β → γ) :
    List.zip (l.map Prod.fst) (l.map g) = l.map fun ab => (ab.1, g ab) := by
  induction l with
  | nil => rfl
  | cons ab t ih => simp [ih]

/-- C8: the batch expectation helper pairs each term key with the result of
computing that same term, gathering executor futures in submission order,
so the returned key-to-value mapping is identical to the mapping produced
by the serial `executor=None` evaluation (given that evaluating against the
scattered network yields the same values as against the original, i.e.
scattering is semantics-preserving). -/
theorem C8_compute_expecs_deterministic {TN V Arr : Type}
    (fn : TN → Arr → Edge → V) (tn : TN) (terms : List (Edge × Arr))
    (ex : ExecutorModel TN)
    (hscatter : ∀ (G : Arr) (w : Edge),
      fn (if ex.hasScatter then ex.scatter tn else tn) G w = fn tn G w) :
    computeExpecsMaybeInParallel fn tn terms (some ex) =
      computeExpecsMaybeInParallel fn tn terms none
    ∧ computeExpecsMaybeInParallel fn tn terms none =
        terms.map fun wG => (wG.1, fn tn wG.2 wG.1) := by
  constructor
  · simp only [computeExpecsMaybeInParallel]
    congr 1
    exact List.map_congr_left fun wG _ => hscatter wG.2 wG.1
  · simp only [computeExpecsMaybeInParallel]
    exact zip_keys_map terms _

/-- A concrete identity-scatter executor over a trivial network type. -/
def qExec : ExecutorModel Unit := { scatter := fun t => t, hasScatter := true }

/-- Witness for C8 with a two-term dict and an identity scatter. -/
theorem C8_compute_expecs_deterministic_witness :
    (∀ (G : Unit) (w : Edge),
      (fun (_ : Unit) (_ : Unit) (w₂ : Edge) => (w₂.1 : ℚ))
        (if qExec.hasScatter then
          qExec.scatter () else ()) G w =
      (fun (_ : Unit) (_ : Unit) (w₂ : Edge) => (w₂.1 : ℚ)) () G w)
    ∧ computeExpecsMaybeInParallel
        (fun (_ : Unit) (_ : Unit) (w₂ : Edge) => (w₂.1 : ℚ)) ()
        [((0, 1), ()), ((1, 2), ())]
        (some qExec) =
      computeExpecsMaybeInParallel
        (fun (_ : Unit) (_ : Unit) (w₂ : Edge) => (w₂.1 : ℚ)) ()
        [((0, 1), ()), ((1, 2), ())] none
    ∧ computeExpecsMaybeInParallel
        (fun (_ : Unit) (_ : Unit) (w₂ : Edge) => (w₂.1 : ℚ)) ()
        [((0, 1), ()), ((1, 2), ())] none =
      ([((0, 1), ()), ((1, 2), ())] : List (Edge × Unit)).map
        fun wG => (wG.1, (wG.1.1 : ℚ)) :=
  ⟨fun _ _ => rfl,
    (C8_compute_expecs_deterministic
      (fun (_ : Unit) (_ : Unit) (w₂ : Edge) => (w₂.1 : ℚ)) ()
      [((0, 1), ()), ((1, 2), ())] qExec
      (fun _ _ => rfl)).1,
    (C8_compute_expecs_deterministic
      (fun (_ : Unit) (_ : Unit) (w₂ : Edge) => (w₂.1 : ℚ)) ()
      [((0, 1), ()), ((1, 2), ())] qExec
      (fun _ _ => rfl)).2⟩

end Quimb
